import Mathlib

/-!
Verification of the finite-field / RREF linear-algebra core of the
lights_out_solver repository.

The Rust source is shallowly embedded: `GFElement` mirrors
`src/finite_field.rs` and `Matrix` mirrors `src/linalg.rs`.  Machine
integers are modelled as unbounded `Int` (moduli in the claims are small,
so `i32` overflow is not in play), and every Rust panic site (failed
`assert!`, `rem_euclid` with zero divisor, `panic!`, out-of-bounds index,
`expect`) is modelled by `Option`, with `none` meaning the computation
panics.
-/

namespace LightsOutSolver

/-- Mirrors `GFElement` from `src/finite_field.rs`: a value together with
its modulus.  Fields are public in the source, so arbitrary (even
non-canonical) field values are representable. -/
structure GFElement where
  value : Int
  modulus : Int
deriving DecidableEq

/-- Default element, used only as the `getD` fallback when stating
specifications about list entries (never reachable on in-bounds input). -/
def gfd : GFElement := ⟨0, 0⟩

instance : Inhabited GFElement := ⟨gfd⟩

/-- Rust `i32::rem_euclid`: Euclidean remainder, which panics when the
divisor is zero.  For a non-zero divisor it agrees with `Int.emod`
(both return a result in `[0, |b|)`). -/
def remEuclid (a b : Int) : Option Int :=
  if b = 0 then none else some (a % b)

/-- `GFElement::new` (src/finite_field.rs:13-22): `assert!(m >= 0)`, then
`v.rem_euclid(m)`.  Note the assertion admits `m = 0`, in which case
`rem_euclid` itself panics. -/
def GFElement.new (v m : Int) : Option GFElement :=
  if 0 ≤ m then (remEuclid v m).map fun val => ⟨val, m⟩
  else none

/-- `impl Add for GFElement` (src/finite_field.rs:31-41). -/
def GFElement.add (a b : GFElement) : Option GFElement :=
  if a.modulus = b.modulus then
    (remEuclid (a.value + b.value) a.modulus).bind fun v => GFElement.new v a.modulus
  else none

/-- `impl Sub for GFElement` (src/finite_field.rs:43-53). -/
def GFElement.sub (a b : GFElement) : Option GFElement :=
  if a.modulus = b.modulus then
    (remEuclid (a.value - b.value) a.modulus).bind fun v => GFElement.new v a.modulus
  else none

/-- `impl Mul for GFElement` (src/finite_field.rs:55-65). -/
def GFElement.mul (a b : GFElement) : Option GFElement :=
  if a.modulus = b.modulus then
    (remEuclid (a.value * b.value) a.modulus).bind fun v => GFElement.new v a.modulus
  else none

/-- The search loop of `GFElement::mult_inverse`
(src/finite_field.rs:86-90): the first `i` in `0..modulus` with
`(value * i).rem_euclid(modulus) == 1`.  Whenever the loop body runs the
modulus is at least 1, so the in-loop `rem_euclid` cannot panic and is
modelled by plain `%` (`Int.emod`). -/
def invSearch (x : GFElement) : Option Nat :=
  (List.range x.modulus.toNat).find? fun i : Nat => (x.value * (i : Int)) % x.modulus == 1

/-- `GFElement::mult_inverse` (src/finite_field.rs:85-96): linear search
for the first inverse candidate; panics when no such `i` exists. -/
def GFElement.mult_inverse (x : GFElement) : Option GFElement :=
  match invSearch x with
  | some i => GFElement.new (i : Int) x.modulus
  | none => none

/-- `impl Div for GFElement` (src/finite_field.rs:67-81): equal-modulus
assertion, explicit division-by-zero panic, then
`(a.value * b.mult_inverse().value).rem_euclid(m)` packed directly into a
struct literal. -/
def GFElement.div (a b : GFElement) : Option GFElement :=
  if a.modulus = b.modulus then
    if b.value = 0 then none
    else
      b.mult_inverse.bind fun binv =>
        (remEuclid (a.value * binv.value) a.modulus).map fun v => ⟨v, a.modulus⟩
  else none

/-- Mirrors `Matrix` from `src/linalg.rs`: an ordered sequence of rows. -/
structure Matrix where
  rows : List (List GFElement)
deriving DecidableEq

/-- Checked read `rows[i][j]`; `none` models the Rust index panic. -/
def getEntry (rows : List (List GFElement)) (i j : Nat) : Option GFElement :=
  match rows[i]? with
  | some row => row[j]?
  | none => none

/-- Checked write `rows[i][j] = v`; `none` models the Rust index panic. -/
def setEntry (rows : List (List GFElement)) (i j : Nat) (v : GFElement) :
    Option (List (List GFElement)) :=
  match rows[i]? with
  | some row => if j < row.length then some (rows.set i (row.set j v)) else none
  | none => none

/-- `Vec::swap` on the outer row vector (panics when out of bounds). -/
def swapRows (rows : List (List GFElement)) (i j : Nat) :
    Option (List (List GFElement)) :=
  match rows[i]?, rows[j]? with
  | some ri, some rj => some ((rows.set i rj).set j ri)
  | _, _ => none

/-- The pivot-search loop of `to_rref` (src/linalg.rs:30-38): for each
lower row index in ascending order, if that row has a non-zero entry in
column `c` it is swapped with row `r`.  The source has no `break`, so
every qualifying lower row is swapped in turn. -/
def swapLoop (r c : Nat) : List Nat → List (List GFElement) → Option (List (List GFElement))
  | [], rows => some rows
  | l :: ls, rows =>
    match getEntry rows l c with
    | none => none
    | some x =>
      if x.value ≠ 0 then
        match swapRows rows r l with
        | none => none
        | some rows1 => swapLoop r c ls rows1
      else swapLoop r c ls rows

/-- The row-scaling loop of `to_rref` (src/linalg.rs:49-53): divide every
entry of row `r` from the pivot column onward by the (pre-loop copy of
the) pivot value. -/
def scaleLoop (r : Nat) (scale : GFElement) :
    List Nat → List (List GFElement) → Option (List (List GFElement))
  | [], rows => some rows
  | c :: cs, rows =>
    match getEntry rows r c with
    | none => none
    | some x =>
      match GFElement.div x scale with
      | none => none
      | some y =>
        match setEntry rows r c y with
        | none => none
        | some rows1 => scaleLoop r scale cs rows1

/-- The inner elimination loop of `to_rref` (src/linalg.rs:63-67): for one
other row `o`, subtract `scale * rows[r][cc]` from `rows[o][cc]` for each
column `cc` from the pivot column onward. -/
def elimInner (o r : Nat) (scale : GFElement) :
    List Nat → List (List GFElement) → Option (List (List GFElement))
  | [], rows => some rows
  | c :: cs, rows =>
    match getEntry rows o c, getEntry rows r c with
    | some xo, some xr =>
      match GFElement.mul scale xr with
      | none => none
      | some prod =>
        match GFElement.sub xo prod with
        | none => none
        | some y =>
          match setEntry rows o c y with
          | none => none
          | some rows1 => elimInner o r scale cs rows1
    | _, _ => none

/-- The outer elimination loop of `to_rref` (src/linalg.rs:55-69): every
row other than `r` with a non-zero entry in the pivot column has a
(pre-loop copy of its) leading value used as the elimination scale. -/
def elimLoop (r c : Nat) (cols : List Nat) :
    List Nat → List (List GFElement) → Option (List (List GFElement))
  | [], rows => some rows
  | o :: os, rows =>
    if o = r then elimLoop r c cols os rows
    else
      match getEntry rows o c with
      | none => none
      | some x =>
        if x.value ≠ 0 then
          match elimInner o r x cols rows with
          | none => none
          | some rows1 => elimLoop r c cols os rows1
        else elimLoop r c cols os rows

/-- The per-row column scan of `to_rref` (src/linalg.rs:24-73): at each
candidate column, run the swap search when the current entry is zero,
re-read the entry, and either advance to the next column (still zero) or
perform the scale / eliminate steps and stop scanning (`continue 'next_row`). -/
def colLoop (r n k : Nat) : List Nat → List (List GFElement) → Option (List (List GFElement))
  | [], rows => some rows
  | c :: cs, rows =>
    match getEntry rows r c with
    | none => none
    | some x =>
      match (if x.value = 0 then swapLoop r c (List.range' (r + 1) (n - (r + 1))) rows
             else some rows) with
      | none => none
      | some rows1 =>
        match getEntry rows1 r c with
        | none => none
        | some y =>
          if y.value = 0 then colLoop r n k cs rows1
          else
            match scaleLoop r y (List.range' c (k - c)) rows1 with
            | none => none
            | some rows2 => elimLoop r c (List.range' c (k - c)) (List.range n) rows2

/-- The outer pivot-row loop of `to_rref` (src/linalg.rs:22). -/
def rowLoop (n k : Nat) : List Nat → List (List GFElement) → Option (List (List GFElement))
  | [], rows => some rows
  | r :: rs, rows =>
    match colLoop r n k (List.range k) rows with
    | none => none
    | some rows1 => rowLoop n k rs rows1

/-- `Matrix::to_rref` (src/linalg.rs:14-77).  `self.rows[0].len()` panics
on an empty matrix; otherwise the mutable copy is processed by the nested
loops above. -/
def Matrix.to_rref (M : Matrix) : Option Matrix :=
  match M.rows[0]? with
  | none => none
  | some row0 =>
    (rowLoop M.rows.length row0.length (List.range M.rows.length) M.rows).map Matrix.mk

/-- `Matrix::unaugmented_matrix` (src/linalg.rs:96-110): drop the last
column, where the kept width comes from the first row
(`rows.first().expect(..)` panics on an empty matrix). -/
def Matrix.unaugmented_matrix (M : Matrix) : Option Matrix :=
  match M.rows[0]? with
  | none => none
  | some row0 => some ⟨M.rows.map fun row => row.take (row0.length - 1)⟩

/-- `Matrix::every_row_has_a_pivot` (src/linalg.rs:112-125): every row is
all zero, or its first non-zero entry (note `take(row.len())` keeps the
whole row) equals 1. -/
def Matrix.every_row_has_a_pivot (M : Matrix) : Bool :=
  M.rows.all fun row =>
    row.all (fun x => x.value == 0) ||
      (match (row.take row.length).find? (fun x => x.value != 0) with
       | some x => x.value == 1
       | none => false)

/-- `Matrix::transpose` (src/linalg.rs:134-152).  The entry fetched for
row `colIdx`, position `rowIdx` of the result is `self.rows[colIdx][rowIdx]`
exactly as in the source (with its index panics). -/
def Matrix.transpose (M : Matrix) : Option Matrix :=
  match M.rows[0]? with
  | none => none
  | some row0 =>
    ((List.range row0.length).mapM fun colIdx =>
      (List.range M.rows.length).mapM fun rowIdx => getEntry M.rows colIdx rowIdx).map Matrix.mk

/-- `Matrix::every_column_has_a_pivot` (src/linalg.rs:127-132). -/
def Matrix.every_column_has_a_pivot (M : Matrix) : Option Bool :=
  M.transpose.map Matrix.every_row_has_a_pivot

/-- `Matrix::is_any_row_unsolvable` (src/linalg.rs:154-162): some row has
all entries except the last equal to zero while its last entry is
non-zero. -/
def Matrix.is_any_row_unsolvable (M : Matrix) : Bool :=
  M.rows.any fun row =>
    (row.take (row.length - 1)).all (fun x => x.value == 0) &&
      (match row.getLast? with
       | some x => x.value != 0
       | none => false)

/-- `Matrix::is_solvable` (src/linalg.rs:79-94). -/
def Matrix.is_solvable (M : Matrix) : Option Bool :=
  match M.to_rref with
  | none => none
  | some R =>
    if R.is_any_row_unsolvable then some false
    else
      match R.unaugmented_matrix with
      | none => none
      | some U => some U.every_row_has_a_pivot

/-- `Matrix::solution` (src/linalg.rs:164-179): `None` when unsolvable,
otherwise the last entry of each row of a freshly computed RREF
(`last().expect(..)` panics on an empty row). -/
def Matrix.solution (M : Matrix) : Option (Option (List GFElement)) :=
  match M.is_solvable with
  | none => none
  | some false => some none
  | some true =>
    match M.to_rref with
    | none => none
    | some R =>
      match R.rows.mapM List.getLast? with
      | none => none
      | some aug => some (some aug)

/-! ## Specification-level definitions -/

/-- Row `i` of a row list, with `[]` as out-of-bounds fallback. -/
def rowD (rows : List (List GFElement)) (i : Nat) : List GFElement := rows.getD i []

/-- Entry `(i, j)` of a row list, with `gfd` as out-of-bounds fallback. -/
def entry (rows : List (List GFElement)) (i j : Nat) : GFElement := (rowD rows i).getD j gfd

/-- Value of entry `(i, j)`. -/
def eVal (rows : List (List GFElement)) (i j : Nat) : Int := (entry rows i j).value

/-- Rectangularity: every row has length `k`. -/
def Shape (k : Nat) (rows : List (List GFElement)) : Prop := ∀ row ∈ rows, row.length = k

/-- Well-formed row data: `n` rows, each of length `k`, all elements with
modulus `p` and canonical value in `[0, p)`. -/
def WfRows (p k n : Nat) (rows : List (List GFElement)) : Prop :=
  rows.length = n ∧ (∀ row ∈ rows, row.length = k) ∧
    (∀ row ∈ rows, ∀ x ∈ row, x.modulus = (p : Int) ∧ 0 ≤ x.value ∧ x.value < (p : Int))

/-- Pivot structure: `cs` lists the pivot columns of the leading rows, in
strictly increasing order; each pivot entry is 1, is the first non-zero
entry of its row, and its column is zero in every other row. -/
def PivotInv (k n : Nat) (cs : List Nat) (rows : List (List GFElement)) : Prop :=
  (∀ c ∈ cs, c < k) ∧
    (∀ i i', i < i' → i' < cs.length → cs.getD i 0 < cs.getD i' 0) ∧
    (∀ i, i < cs.length → eVal rows i (cs.getD i 0) = 1) ∧
    (∀ i, i < cs.length → ∀ j, j < cs.getD i 0 → eVal rows i j = 0) ∧
    (∀ i, i < cs.length → ∀ i', i' < n → i' ≠ i → eVal rows i' (cs.getD i 0) = 0)

/-- Loop invariant of the outer row loop before processing row `r`. -/
def RowInv (p k n r : Nat) (rows : List (List GFElement)) : Prop :=
  WfRows p k n rows ∧
    ∃ cs : List Nat, cs.length ≤ r ∧ PivotInv k n cs rows ∧
      ((cs.length < r ∧ ∀ i, cs.length ≤ i → i < n → ∀ j, j < k → eVal rows i j = 0) ∨
        (cs.length = r ∧
          ∀ i, r ≤ i → i < n → ∀ i', i' < cs.length → ∀ j, j ≤ cs.getD i' 0 →
            eVal rows i j = 0))

/-- Structure of a fully reduced matrix: pivot rows followed by all-zero
rows. -/
def RREFInv (p k n : Nat) (rows : List (List GFElement)) : Prop :=
  WfRows p k n rows ∧
    ∃ cs : List Nat, cs.length ≤ n ∧ PivotInv k n cs rows ∧
      ∀ i, cs.length ≤ i → i < n → ∀ j, j < k → eVal rows i j = 0

/-- Outcome of the column scan of one row when a pivot is found at
column `cp`: zeros to the left in rows `r` and below (both before and
after), untouched entries to the left in rows above, a 1 at the pivot and
zeros in the pivot column elsewhere. -/
def PivotOutcome (k n r cp : Nat) (rows rows' : List (List GFElement)) : Prop :=
  cp < k ∧ (∃ i0, r ≤ i0 ∧ i0 < n ∧ eVal rows i0 cp ≠ 0) ∧
    (∀ i, i < r → ∀ j, j < cp → entry rows' i j = entry rows i j) ∧
    (∀ i, r ≤ i → i < n → ∀ j, j < cp → eVal rows' i j = 0) ∧
    (∀ i, r ≤ i → i < n → ∀ j, j < cp → eVal rows i j = 0) ∧
    eVal rows' r cp = 1 ∧
    (∀ i, i < n → i ≠ r → eVal rows' i cp = 0)

/-- Claim-side predicate: a contradiction row (all entries in all but the
last column are zero, and the last-column entry is non-zero). -/
def contradictionRow (row : List GFElement) : Prop :=
  (∀ x ∈ row.take (row.length - 1), x.value = 0) ∧ row ≠ [] ∧
    (row.getD (row.length - 1) gfd).value ≠ 0

/-- Claim-side predicate: every entry of the row is zero. -/
def allZeroRow (row : List GFElement) : Prop := ∀ x ∈ row, x.value = 0

/-- Claim-side predicate: the first non-zero entry of the row exists and
equals 1. -/
def leadingOne (row : List GFElement) : Prop :=
  ∃ j, j < row.length ∧ (∀ i, i < j → (row.getD i gfd).value = 0) ∧
    (row.getD j gfd).value = 1

/-- Hypothesis bundle used by the matrix claims: non-empty, rectangular
with `k` columns, all elements sharing modulus `p` with canonical values. -/
def MatrixWf (M : Matrix) (p k : Nat) : Prop :=
  M.rows ≠ [] ∧ (∀ row ∈ M.rows, row.length = k) ∧
    (∀ row ∈ M.rows, ∀ x ∈ row, x.modulus = (p : Int) ∧ 0 ≤ x.value ∧ x.value < (p : Int))

instance (k : Nat) (rows : List (List GFElement)) : Decidable (Shape k rows) :=
  decidable_of_iff (∀ row ∈ rows, row.length = k) Iff.rfl

instance (row : List GFElement) : Decidable (contradictionRow row) :=
  decidable_of_iff ((∀ x ∈ row.take (row.length - 1), x.value = 0) ∧ row ≠ [] ∧
    (row.getD (row.length - 1) gfd).value ≠ 0) Iff.rfl

instance (row : List GFElement) : Decidable (allZeroRow row) :=
  decidable_of_iff (∀ x ∈ row, x.value = 0) Iff.rfl

instance (row : List GFElement) : Decidable (leadingOne row) :=
  decidable_of_iff (∃ j, j < row.length ∧ (∀ i, i < j → (row.getD i gfd).value = 0) ∧
    (row.getD j gfd).value = 1) Iff.rfl

instance (M : Matrix) (p k : Nat) : Decidable (MatrixWf M p k) :=
  decidable_of_iff (M.rows ≠ [] ∧ (∀ row ∈ M.rows, row.length = k) ∧
    (∀ row ∈ M.rows, ∀ x ∈ row,
      x.modulus = (p : Int) ∧ 0 ≤ x.value ∧ x.value < (p : Int))) Iff.rfl

/-! ## Basic lemmas about entries and well-formedness -/

theorem rowD_eq_getElem {rows : List (List GFElement)} {i : Nat} (hi : i < rows.length) :
    rowD rows i = rows[i] := by
  simp [rowD, List.getD_eq_getElem?_getD, List.getElem?_eq_getElem hi]

theorem entry_eq_getElem {rows : List (List GFElement)} {i j : Nat} (hi : i < rows.length)
    (hj : j < (rows[i]).length) : entry rows i j = rows[i][j] := by
  simp [entry, rowD_eq_getElem hi, List.getD_eq_getElem?_getD, List.getElem?_eq_getElem hj]

theorem getEntry_eq_some {rows : List (List GFElement)} {i j : Nat} (hi : i < rows.length)
    (hj : j < (rows[i]).length) : getEntry rows i j = some (entry rows i j) := by
  simp [getEntry, List.getElem?_eq_getElem hi, List.getElem?_eq_getElem hj,
    entry_eq_getElem hi hj]

theorem WfRows.rows_len {p k n : Nat} {rows : List (List GFElement)}
    (h : WfRows p k n rows) : rows.length = n := h.1

theorem WfRows.row_len {p k n : Nat} {rows : List (List GFElement)}
    (h : WfRows p k n rows) {i : Nat} (hi : i < n) : (rowD rows i).length = k := by
  have hi' : i < rows.length := by rw [h.rows_len]; exact hi
  rw [rowD_eq_getElem hi']
  exact h.2.1 _ (List.getElem_mem hi')

theorem WfRows.entry_wf {p k n : Nat} {rows : List (List GFElement)}
    (h : WfRows p k n rows) {i j : Nat} (hi : i < n) (hj : j < k) :
    (entry rows i j).modulus = (p : Int) ∧ 0 ≤ (entry rows i j).value ∧
      (entry rows i j).value < (p : Int) := by
  have hi' : i < rows.length := by rw [h.rows_len]; exact hi
  have hjl : j < (rows[i]).length := by
    have := h.row_len hi
    rw [rowD_eq_getElem hi'] at this
    omega
  rw [entry_eq_getElem hi' hjl]
  exact h.2.2 _ (List.getElem_mem hi') _ (List.getElem_mem hjl)

theorem WfRows.getEntry_eq {p k n : Nat} {rows : List (List GFElement)}
    (h : WfRows p k n rows) {i j : Nat} (hi : i < n) (hj : j < k) :
    getEntry rows i j = some (entry rows i j) := by
  have hi' : i < rows.length := by rw [h.rows_len]; exact hi
  have hjl : j < (rows[i]).length := by
    have := h.row_len hi
    rw [rowD_eq_getElem hi'] at this
    omega
  exact getEntry_eq_some hi' hjl

theorem list_set_self {α : Type _} (l : List α) (i : Nat) (h : i < l.length) :
    l.set i l[i] = l := by
  apply List.ext_getElem
  · simp
  · intro j hj hj'
    by_cases hij : i = j
    · subst hij
      simp
    · rw [List.getElem_set_ne hij]

/-! ## Field-element lemmas -/

theorem new_pos {v m : Int} (hm : 0 < m) : GFElement.new v m = some ⟨v % m, m⟩ := by
  simp [GFElement.new, remEuclid, hm.le, hm.ne.symm]

theorem emod_canonical {v m : Int} (hm : 0 < m) : 0 ≤ v % m ∧ v % m < m :=
  ⟨Int.emod_nonneg v hm.ne.symm, Int.emod_lt_of_pos v hm⟩

theorem mul_some {a b : GFElement} {m : Int} (ha : a.modulus = m) (hb : b.modulus = m)
    (hm : 0 < m) : GFElement.mul a b = some ⟨(a.value * b.value) % m, m⟩ := by
  rw [GFElement.mul, ha, hb]
  simp [remEuclid, hm.ne.symm, GFElement.new, hm.le, Int.emod_emod_of_dvd _ dvd_rfl]

theorem sub_some {a b : GFElement} {m : Int} (ha : a.modulus = m) (hb : b.modulus = m)
    (hm : 0 < m) : GFElement.sub a b = some ⟨(a.value - b.value) % m, m⟩ := by
  rw [GFElement.sub, ha, hb]
  simp [remEuclid, hm.ne.symm, GFElement.new, hm.le, Int.emod_emod_of_dvd _ dvd_rfl]

/-- `find?` over `List.range n` returns the least index satisfying the
predicate. -/
theorem find_range_first {p : Nat → Bool} {n i : Nat}
    (h : (List.range n).find? p = some i) : p i = true ∧ ∀ j, j < i → p j = false := by
  induction n with
  | zero => simp [List.range_zero] at h
  | succ n ih =>
    rw [List.range_succ, List.find?_append] at h
    cases hfind : (List.range n).find? p with
    | some i' =>
      rw [hfind] at h
      simp only [Option.or_some] at h
      obtain rfl : i' = i := by injection h
      exact ih hfind
    | none =>
      rw [hfind] at h
      simp only [Option.none_or] at h
      have hrange := List.find?_eq_none.mp hfind
      by_cases hp : p n = true
      · simp only [List.find?, hp, Option.some.injEq] at h
        subst h
        refine ⟨hp, fun j hj => ?_⟩
        have := hrange j (List.mem_range.mpr hj)
        simpa using this
      · simp only [List.find?, Bool.not_eq_true] at hp
        simp [List.find?, hp] at h

/-- `find?` over `List.range n` succeeds when some index in range
satisfies the predicate. -/
theorem find_range_isSome {p : Nat → Bool} {n : Nat} (h : ∃ i, i < n ∧ p i = true) :
    ∃ i, (List.range n).find? p = some i := by
  cases hfind : (List.range n).find? p with
  | some i => exact ⟨i, rfl⟩
  | none =>
    obtain ⟨i, hi, hp⟩ := h
    have := List.find?_eq_none.mp hfind i (List.mem_range.mpr hi)
    simp [hp] at this

/-- Bezout: a unit modulo `m` has an inverse among `0, …, m-1`. -/
theorem exists_inverse_of_gcd {v m : Int} (hm : 1 < m) (hg : Int.gcd v m = 1) :
    ∃ i : Nat, (i : Int) < m ∧ (v * (i : Int)) % m = 1 := by
  obtain ⟨u, w, huw⟩ := Int.gcd_eq_one_iff_coprime.mp hg
  have hm0 : (0 : Int) < m := by omega
  refine ⟨(u % m).toNat, ?_, ?_⟩
  · rw [Int.toNat_of_nonneg (Int.emod_nonneg u hm0.ne.symm)]
    exact Int.emod_lt_of_pos u hm0
  · rw [Int.toNat_of_nonneg (Int.emod_nonneg u hm0.ne.symm)]
    have h1 : (v * (u % m)) % m = (v * u) % m := by
      conv_rhs => rw [Int.mul_emod]
      rw [Int.mul_emod, Int.emod_emod_of_dvd _ dvd_rfl]
    rw [h1]
    have h2 : v * u = 1 + m * (-w) := by linarith [huw]
    rw [h2, Int.add_mul_emod_self_left]
    exact Int.emod_eq_of_lt (by omega) hm

/-- Conversely, a solution of `(v * i) mod m = 1` forces `gcd(v, m) = 1`. -/
theorem gcd_eq_one_of_inverse {v m i : Int} (h : (v * i) % m = 1) :
    Int.gcd v m = 1 := by
  have hd1 : ((Int.gcd v m : Int)) ∣ v := Int.gcd_dvd_left
  have hd2 : ((Int.gcd v m : Int)) ∣ m := Int.gcd_dvd_right
  have hmod : v * i - 1 = m * ((v * i) / m) := by
    have := Int.emod_def (v * i) m
    omega
  have hdvd : ((Int.gcd v m : Int)) ∣ 1 := by
    have h1 : ((Int.gcd v m : Int)) ∣ v * i := hd1.mul_right i
    have h2 : ((Int.gcd v m : Int)) ∣ v * i - 1 := hmod ▸ hd2.mul_right _
    have := dvd_sub h1 h2
    simpa using this
  have : (Int.gcd v m) ∣ 1 := by exact_mod_cast hdvd
  exact Nat.dvd_one.mp this

/-- `mult_inverse` succeeds on a unit (modulus above 1, value coprime to
it), returning the least non-negative inverse. -/
theorem mult_inverse_some {x : GFElement} (hm : 1 < x.modulus)
    (hg : Int.gcd x.value x.modulus = 1) :
    ∃ i : Nat, (i : Int) < x.modulus ∧ (x.value * (i : Int)) % x.modulus = 1 ∧
      (∀ j : Nat, j < i → (x.value * (j : Int)) % x.modulus ≠ 1) ∧
      x.mult_inverse = some ⟨(i : Int), x.modulus⟩ := by
  have hm0 : (0 : Int) < x.modulus := by omega
  obtain ⟨i0, hi0, hinv0⟩ := exists_inverse_of_gcd hm hg
  have hsome : ∃ i, invSearch x = some i := by
    unfold invSearch
    exact find_range_isSome ⟨i0, by omega, by simp [hinv0]⟩
  obtain ⟨i, hi⟩ := hsome
  have hifind : (List.range x.modulus.toNat).find?
      (fun i : Nat => (x.value * (i : Int)) % x.modulus == 1) = some i := hi
  obtain ⟨hpi, hmin⟩ := find_range_first hifind
  have hiv : (x.value * (i : Int)) % x.modulus = 1 := by simpa using hpi
  have hilt : (i : Int) < x.modulus := by
    have h1 : i ∈ List.range x.modulus.toNat := List.mem_of_find?_eq_some hi
    have h2 := List.mem_range.mp h1
    omega
  refine ⟨i, hilt, hiv, ?_, ?_⟩
  · intro j hj hcon
    have := hmin j hj
    simp [hcon] at this
  · rw [GFElement.mult_inverse, hi]
    show GFElement.new (i : Int) x.modulus = _
    rw [new_pos hm0]
    congr 2
    exact Int.emod_eq_of_lt (by positivity) hilt

/-- `mult_inverse` fails (panics) exactly like the source when the value
is not coprime to the modulus. -/
theorem mult_inverse_none {x : GFElement} (hg : Int.gcd x.value x.modulus ≠ 1) :
    x.mult_inverse = none := by
  cases hfind : invSearch x with
  | none => rw [GFElement.mult_inverse, hfind]
  | some i =>
    exfalso
    have hifind : (List.range x.modulus.toNat).find?
        (fun i : Nat => (x.value * (i : Int)) % x.modulus == 1) = some i := hfind
    have := (find_range_first hifind).1
    have hiv : (x.value * (i : Int)) % x.modulus = 1 := by simpa using this
    exact hg (gcd_eq_one_of_inverse hiv)

/-- A canonical non-zero value is coprime to a prime modulus. -/
theorem gcd_prime {P : Nat} (hP : Nat.Prime P) {v : Int} (h0 : 0 < v)
    (hv : v < (P : Int)) : Int.gcd v P = 1 := by
  have hvnat : v = ((v.toNat : Nat) : Int) := (Int.toNat_of_nonneg h0.le).symm
  rw [hvnat, Int.gcd_natCast_natCast]
  have hlt : v.toNat < P := by omega
  have hpos : 0 < v.toNat := by omega
  have hnd : ¬ P ∣ v.toNat := fun hdvd => by
    have := Nat.le_of_dvd hpos hdvd
    omega
  exact Nat.Coprime.gcd_eq_one (Nat.Coprime.symm ((Nat.Prime.coprime_iff_not_dvd hP).mpr hnd))

/-- `div` succeeds on a unit divisor and computes
`(a.value * inverse).rem_euclid(m)`. -/
theorem div_some {a b : GFElement} {m : Int} (ha : a.modulus = m) (hb : b.modulus = m)
    (hbz : b.value ≠ 0) (hm : 1 < m) (hg : Int.gcd b.value m = 1) :
    ∃ iv : Nat, (iv : Int) < m ∧ (b.value * (iv : Int)) % m = 1 ∧
      GFElement.div a b = some ⟨(a.value * (iv : Int)) % m, m⟩ := by
  have hm' : 1 < b.modulus := hb ▸ hm
  have hg' : Int.gcd b.value b.modulus = 1 := hb ▸ hg
  obtain ⟨iv, hlt, hinv, -, heq⟩ := mult_inverse_some hm' hg'
  refine ⟨iv, hb ▸ hlt, hb ▸ hinv, ?_⟩
  rw [GFElement.div, if_pos (ha.trans hb.symm), if_neg hbz, heq]
  simp [remEuclid, ha, show m ≠ 0 by omega]

/-- Dividing a unit by itself yields the element 1. -/
theorem div_self_eq_one {b : GFElement} {m : Int} (hb : b.modulus = m) (hbz : b.value ≠ 0)
    (hm : 1 < m) (hg : Int.gcd b.value m = 1) :
    GFElement.div b b = some ⟨1, m⟩ := by
  obtain ⟨iv, -, hinv, heq⟩ := div_some hb hb hbz hm hg
  rw [heq, hinv]

/-- Dividing a canonical element by the element 1 is the identity
(the inverse search returns 1, having passed over 0 first). -/
theorem div_one {x : GFElement} {m : Int} (hx : x.modulus = m) (hm : 1 < m)
    (h0 : 0 ≤ x.value) (hlt : x.value < m) : GFElement.div x ⟨1, m⟩ = some x := by
  have hg : Int.gcd (1 : Int) m = 1 := by simp [Int.gcd]
  obtain ⟨iv, hivlt, hinv, heq⟩ :=
    div_some (a := x) (b := ⟨1, m⟩) hx rfl one_ne_zero hm hg
  have hinv' : ((1 : Int) * (iv : Int)) % m = 1 := hinv
  have hiv1 : (iv : Int) = 1 := by
    rw [one_mul, Int.emod_eq_of_lt (by positivity) hivlt] at hinv'
    exact hinv'
  rw [heq, hiv1, mul_one, Int.emod_eq_of_lt h0 hlt]
  cases x with
  | mk v mm =>
    simp only at hx
    simp [hx]

/-! ## Primitive row-operation lemmas -/

theorem gf_eq {x : GFElement} {v m : Int} (hv : x.value = v) (hm : x.modulus = m) :
    x = ⟨v, m⟩ := by
  cases x
  simp_all

theorem entry_congr {rows1 rows2 : List (List GFElement)} {i : Nat}
    (h : rowD rows2 i = rowD rows1 i) (j : Nat) : entry rows2 i j = entry rows1 i j := by
  simp [entry, h]

theorem rowD_set_self {rows : List (List GFElement)} {i : Nat} (hi : i < rows.length)
    (w : List GFElement) : rowD (rows.set i w) i = w := by
  simp [rowD, List.getD_eq_getElem?_getD, List.getElem?_set_self hi]

theorem rowD_set_ne {rows : List (List GFElement)} {i i' : Nat} (h : i' ≠ i)
    (w : List GFElement) : rowD (rows.set i w) i' = rowD rows i' := by
  simp [rowD, List.getD_eq_getElem?_getD, List.getElem?_set_ne (Ne.symm h)]

theorem getD_set_self {row : List GFElement} {j : Nat} (hj : j < row.length)
    (v : GFElement) : (row.set j v).getD j gfd = v := by
  simp [List.getD_eq_getElem?_getD, List.getElem?_set_self hj]

theorem getD_set_ne {row : List GFElement} {j j' : Nat} (h : j' ≠ j) (v : GFElement) :
    (row.set j v).getD j' gfd = row.getD j' gfd := by
  simp [List.getD_eq_getElem?_getD, List.getElem?_set_ne (Ne.symm h)]

/-- Well-formedness is preserved by replacing one row with a row of the
right length whose elements are well-formed. -/
theorem WfRows.set_row {p k n : Nat} {rows : List (List GFElement)}
    (h : WfRows p k n rows) {w : List GFElement} (hwl : w.length = k)
    (hwx : ∀ x ∈ w, x.modulus = (p : Int) ∧ 0 ≤ x.value ∧ x.value < (p : Int))
    (i : Nat) : WfRows p k n (rows.set i w) := by
  refine ⟨by simp [h.rows_len], fun row hrow => ?_, fun row hrow => ?_⟩
  · rcases List.mem_or_eq_of_mem_set hrow with h' | h'
    · exact h.2.1 _ h'
    · subst h'; exact hwl
  · rcases List.mem_or_eq_of_mem_set hrow with h' | h'
    · exact h.2.2 _ h'
    · subst h'; exact hwx

/-- Well-formedness is preserved by updating one entry to a well-formed
element. -/
theorem WfRows.set_entry {p k n : Nat} {rows : List (List GFElement)}
    (h : WfRows p k n rows) {i j : Nat} (hi : i < n) {v : GFElement}
    (hv : v.modulus = (p : Int) ∧ 0 ≤ v.value ∧ v.value < (p : Int)) :
    WfRows p k n (rows.set i ((rowD rows i).set j v)) := by
  have hi' : i < rows.length := by rw [h.rows_len]; exact hi
  refine h.set_row ?_ ?_ i
  · rw [List.length_set]; exact h.row_len hi
  · intro x hx
    rcases List.mem_or_eq_of_mem_set hx with h' | h'
    · rw [rowD_eq_getElem hi'] at h'
      exact h.2.2 _ (List.getElem_mem hi') _ h'
    · subst h'; exact hv

theorem setEntry_some {p k n : Nat} {rows : List (List GFElement)}
    (h : WfRows p k n rows) {i j : Nat} (hi : i < n) (hj : j < k) (v : GFElement) :
    setEntry rows i j v = some (rows.set i ((rowD rows i).set j v)) := by
  have hi' : i < rows.length := by rw [h.rows_len]; exact hi
  have hj' : j < (rows[i]).length := by
    have := h.row_len hi
    rw [rowD_eq_getElem hi'] at this
    omega
  rw [setEntry, List.getElem?_eq_getElem hi', rowD_eq_getElem hi']
  simp [hj']

theorem swapRows_some {rows : List (List GFElement)} {i j : Nat} (hi : i < rows.length)
    (hj : j < rows.length) :
    swapRows rows i j = some ((rows.set i rows[j]).set j rows[i]) := by
  rw [swapRows, List.getElem?_eq_getElem hi, List.getElem?_eq_getElem hj]

/-- The three row-level effects of a swap. -/
theorem swap_rowD {rows : List (List GFElement)} {i j : Nat} (hi : i < rows.length)
    (hj : j < rows.length) :
    rowD ((rows.set i rows[j]).set j rows[i]) j = rowD rows i ∧
      (i ≠ j → rowD ((rows.set i rows[j]).set j rows[i]) i = rowD rows j) ∧
      (∀ i', i' ≠ i → i' ≠ j → rowD ((rows.set i rows[j]).set j rows[i]) i' = rowD rows i') := by
  refine ⟨?_, fun hij => ?_, fun i' h1 h2 => ?_⟩
  · rw [rowD_set_self (by simpa using hj), rowD_eq_getElem hi]
  · rw [rowD_set_ne hij, rowD_set_self hi, rowD_eq_getElem hj]
  · rw [rowD_set_ne h2, rowD_set_ne h1]

theorem WfRows.swap {p k n : Nat} {rows : List (List GFElement)} (h : WfRows p k n rows)
    {i j : Nat} (hi : i < rows.length) (hj : j < rows.length) :
    WfRows p k n ((rows.set i rows[j]).set j rows[i]) := by
  have h1 : WfRows p k n (rows.set i rows[j]) :=
    h.set_row (h.2.1 _ (List.getElem_mem hj)) (h.2.2 _ (List.getElem_mem hj)) i
  exact h1.set_row (h.2.1 _ (List.getElem_mem hi)) (h.2.2 _ (List.getElem_mem hi)) j

/-! ## Swap-loop lemmas -/

theorem getEntry_inv {rows : List (List GFElement)} {i j : Nat} {x : GFElement}
    (h : getEntry rows i j = some x) :
    i < rows.length ∧ j < (rowD rows i).length ∧ entry rows i j = x := by
  rw [getEntry] at h
  cases hrow : rows[i]? with
  | none => rw [hrow] at h; simp at h
  | some row =>
    simp only [hrow] at h
    have hi : i < rows.length := by
      by_contra hge
      rw [List.getElem?_eq_none (by omega)] at hrow
      exact Option.noConfusion hrow
    have hrd : rowD rows i = row := by
      simp [rowD, List.getD_eq_getElem?_getD, hrow]
    have hj : j < row.length := by
      by_contra hge
      rw [List.getElem?_eq_none (by omega)] at h
      exact Option.noConfusion h
    refine ⟨hi, by rw [hrd]; exact hj, ?_⟩
    simp [entry, hrd, List.getD_eq_getElem?_getD, h]

theorem swapRows_inv {rows : List (List GFElement)} {i j : Nat}
    {A : List (List GFElement)} (h : swapRows rows i j = some A) :
    ∃ (hi : i < rows.length) (hj : j < rows.length),
      A = (rows.set i rows[j]).set j rows[i] := by
  rw [swapRows] at h
  cases hri : rows[i]? with
  | none => rw [hri] at h; simp at h
  | some ri =>
    cases hrj : rows[j]? with
    | none => rw [hri, hrj] at h; simp at h
    | some rj =>
      rw [hri, hrj] at h
      have hi : i < rows.length := by
        by_contra hge
        rw [List.getElem?_eq_none (by omega)] at hri
        exact Option.noConfusion hri
      have hj : j < rows.length := by
        by_contra hge
        rw [List.getElem?_eq_none (by omega)] at hrj
        exact Option.noConfusion hrj
      refine ⟨hi, hj, ?_⟩
      have h1 : ri = rows[i] := by
        rw [List.getElem?_eq_getElem hi] at hri
        exact (Option.some.inj hri).symm
      have h2 : rj = rows[j] := by
        rw [List.getElem?_eq_getElem hj] at hrj
        exact (Option.some.inj hrj).symm
      simp only [Option.some.injEq] at h
      rw [← h, h1, h2]

theorem swapLoop_spec {p k n r c : Nat} (hr : r < n) (hc : c < k) :
    ∀ (ls : List Nat) (rows : List (List GFElement)), WfRows p k n rows →
      (∀ l ∈ ls, r < l ∧ l < n) →
      ∃ rows1, swapLoop r c ls rows = some rows1 ∧ WfRows p k n rows1 ∧
        (∀ i, i < r → rowD rows1 i = rowD rows i) ∧
        (∀ Q : List GFElement → Prop,
          (∀ i, r ≤ i → i < n → Q (rowD rows i)) →
            ∀ i, r ≤ i → i < n → Q (rowD rows1 i)) := by
  intro ls
  induction ls with
  | nil =>
    intro rows hwf _
    exact ⟨rows, rfl, hwf, fun _ _ => rfl, fun _ hQ => hQ⟩
  | cons l ls ih =>
    intro rows hwf hls
    obtain ⟨hrl, hln⟩ := hls l (List.mem_cons_self l ls)
    have hget := hwf.getEntry_eq hln hc
    by_cases hx : (entry rows l c).value = 0
    · obtain ⟨rows1, heq, hwf1, hlt, hQ⟩ :=
        ih rows hwf (fun l' hl' => hls l' (List.mem_cons_of_mem l hl'))
      refine ⟨rows1, ?_, hwf1, hlt, hQ⟩
      simp only [swapLoop, hget, hx]
      simpa using heq
    · have hrlen : r < rows.length := by rw [hwf.rows_len]; exact hr
      have hllen : l < rows.length := by rw [hwf.rows_len]; exact hln
      have hsw := swapRows_some hrlen hllen
      set A := (rows.set r rows[l]).set l rows[r] with hA
      have hwfA : WfRows p k n A := hwf.swap hrlen hllen
      obtain ⟨hswap1, hswap2, hswap3⟩ := swap_rowD hrlen hllen
      obtain ⟨rows1, heq, hwf1, hlt, hQ⟩ :=
        ih A hwfA (fun l' hl' => hls l' (List.mem_cons_of_mem l hl'))
      refine ⟨rows1, ?_, hwf1, ?_, ?_⟩
      · simp only [swapLoop, hget, hx, if_pos (fun hcz => hx hcz), hsw]
        simpa using heq
      · intro i hi
        rw [hlt i hi, hswap3 i (by omega) (by omega)]
      · intro Q hQ0
        apply hQ
        intro i hi1 hi2
        rcases eq_or_ne i l with rfl | hil
        · rw [hswap1]
          exact hQ0 r le_rfl hr
        · rcases eq_or_ne i r with rfl | hir
          · rw [hswap2 (by omega)]
            exact hQ0 l (by omega) hln
          · rw [hswap3 i hir hil]
            exact hQ0 i hi1 hi2

theorem swapLoop_zero {r c : Nat} :
    ∀ (ls : List Nat) (rows rows1 : List (List GFElement)),
      swapLoop r c ls rows = some rows1 → (∀ l ∈ ls, r < l) →
      eVal rows1 r c = 0 →
      rows1 = rows ∧ ∀ l ∈ ls, eVal rows l c = 0 := by
  intro ls
  induction ls with
  | nil =>
    intro rows rows1 h _ _
    simp only [swapLoop, Option.some.injEq] at h
    exact ⟨h.symm, by simp⟩
  | cons l ls ih =>
    intro rows rows1 h hls hz
    have hrl : r < l := hls l (List.mem_cons_self l ls)
    cases hget : getEntry rows l c with
    | none =>
      simp only [swapLoop, hget] at h
      exact Option.noConfusion h
    | some x =>
      simp only [swapLoop, hget] at h
      obtain ⟨hllen, hjlen, hx⟩ := getEntry_inv hget
      by_cases hxz : x.value = 0
      · rw [if_neg (not_not_intro hxz)] at h
        obtain ⟨h1, h2⟩ := ih rows rows1 h
          (fun l' hl' => hls l' (List.mem_cons_of_mem l hl')) hz
        refine ⟨h1, fun l' hl' => ?_⟩
        rcases List.mem_cons.mp hl' with rfl | hl''
        · rw [eVal, hx, hxz]
        · exact h2 l' hl''
      · rw [if_pos hxz] at h
        cases hsw : swapRows rows r l with
        | none => rw [hsw] at h; exact Option.noConfusion h
        | some A =>
          simp only [hsw] at h
          obtain ⟨hrlen, hllen2, hAeq⟩ := swapRows_inv hsw
          obtain ⟨h1, -⟩ := ih A rows1 h
            (fun l' hl' => hls l' (List.mem_cons_of_mem l hl')) hz
          exfalso
          subst h1
          obtain ⟨-, hswap2, -⟩ := swap_rowD hrlen hllen2
          rw [hAeq, eVal, entry, hswap2 (by omega)] at hz
          apply hxz
          rw [← hx, entry]
          exact hz

theorem swapLoop_id {p k n r c : Nat} (hc : c < k) :
    ∀ (ls : List Nat) (rows : List (List GFElement)), WfRows p k n rows →
      (∀ l ∈ ls, l < n) → (∀ l ∈ ls, eVal rows l c = 0) →
      swapLoop r c ls rows = some rows := by
  intro ls
  induction ls with
  | nil => intro rows _ _ _; rfl
  | cons l ls ih =>
    intro rows hwf hln hz
    have hget := hwf.getEntry_eq (hln l (List.mem_cons_self l ls)) hc
    have hzl : (entry rows l c).value = 0 := hz l (List.mem_cons_self l ls)
    simp only [swapLoop, hget, hzl]
    simpa using ih rows hwf (fun l' hl' => hln l' (List.mem_cons_of_mem l hl'))
      (fun l' hl' => hz l' (List.mem_cons_of_mem l hl'))

/-! ## Scale-loop and elimination-loop lemmas -/

theorem scaleLoop_spec {p k n r : Nat} {scale : GFElement} (hr : r < n)
    (hp : 1 < (p : Int)) (hsm : scale.modulus = (p : Int)) (hsz : scale.value ≠ 0)
    (hg : Int.gcd scale.value (p : Int) = 1) :
    ∀ (cols : List Nat) (rows : List (List GFElement)), WfRows p k n rows →
      (∀ j ∈ cols, j < k) →
      ∃ rows2, scaleLoop r scale cols rows = some rows2 ∧ WfRows p k n rows2 ∧
        (∀ i, i ≠ r → rowD rows2 i = rowD rows i) ∧
        (∀ j, j ∉ cols → entry rows2 r j = entry rows r j) := by
  intro cols
  induction cols with
  | nil =>
    intro rows hwf _
    exact ⟨rows, rfl, hwf, fun _ _ => rfl, fun _ _ => rfl⟩
  | cons c cs ih =>
    intro rows hwf hcols
    have hc : c < k := hcols c (List.mem_cons_self c cs)
    have hget := hwf.getEntry_eq hr hc
    have hx := hwf.entry_wf hr hc
    have hp0 : (0 : Int) < (p : Int) := by omega
    obtain ⟨iv, hivlt, hinv, hdiv⟩ :=
      div_some (a := entry rows r c) (b := scale) hx.1 hsm hsz hp hg
    have hyc := emod_canonical (v := (entry rows r c).value * (iv : Int)) hp0
    have hset := setEntry_some hwf hr hc
      (⟨((entry rows r c).value * (iv : Int)) % (p : Int), (p : Int)⟩ : GFElement)
    have hwf' := hwf.set_entry (j := c) hr
      (v := (⟨((entry rows r c).value * (iv : Int)) % (p : Int), (p : Int)⟩ : GFElement))
      ⟨rfl, hyc.1, hyc.2⟩
    obtain ⟨rows2, heq, hwf2, hother, hout⟩ := ih _ hwf'
      (fun j hj => hcols j (List.mem_cons_of_mem c hj))
    have hrlen : r < rows.length := by rw [hwf.rows_len]; exact hr
    refine ⟨rows2, ?_, hwf2, ?_, ?_⟩
    · simp only [scaleLoop, hget, hdiv, hset]
      exact heq
    · intro i hi
      rw [hother i hi, rowD_set_ne hi]
    · intro j hj
      have hjc : j ≠ c := fun h => hj (h ▸ List.mem_cons_self c cs)
      have hjcs : j ∉ cs := fun h => hj (List.mem_cons_of_mem c h)
      rw [hout j hjcs, entry, rowD_set_self hrlen, getD_set_ne hjc]
      rfl

theorem elimInner_spec {p k n o r : Nat} {scale : GFElement} (ho : o < n) (hr : r < n)
    (hor : o ≠ r) (hp0 : (0 : Int) < (p : Int)) (hsm : scale.modulus = (p : Int)) :
    ∀ (cols : List Nat) (rows : List (List GFElement)), WfRows p k n rows →
      (∀ j ∈ cols, j < k) →
      ∃ rows3, elimInner o r scale cols rows = some rows3 ∧ WfRows p k n rows3 ∧
        (∀ i, i ≠ o → rowD rows3 i = rowD rows i) ∧
        (∀ j, j ∉ cols → entry rows3 o j = entry rows o j) := by
  intro cols
  induction cols with
  | nil =>
    intro rows hwf _
    exact ⟨rows, rfl, hwf, fun _ _ => rfl, fun _ _ => rfl⟩
  | cons c cs ih =>
    intro rows hwf hcols
    have hc : c < k := hcols c (List.mem_cons_self c cs)
    have hgeto := hwf.getEntry_eq ho hc
    have hgetr := hwf.getEntry_eq hr hc
    have hxo := hwf.entry_wf ho hc
    have hxr := hwf.entry_wf hr hc
    have hmul := mul_some (a := scale) (b := entry rows r c) hsm hxr.1 hp0
    have hsub := sub_some (a := entry rows o c)
      (b := (⟨(scale.value * (entry rows r c).value) % (p : Int), (p : Int)⟩ : GFElement))
      hxo.1 rfl hp0
    have hyc := emod_canonical
      (v := (entry rows o c).value - (scale.value * (entry rows r c).value) % (p : Int)) hp0
    have hset := setEntry_some hwf ho hc
      (⟨((entry rows o c).value - (scale.value * (entry rows r c).value) % (p : Int)) %
        (p : Int), (p : Int)⟩ : GFElement)
    have hwf' := hwf.set_entry (j := c) ho
      (v := (⟨((entry rows o c).value -
        (scale.value * (entry rows r c).value) % (p : Int)) % (p : Int), (p : Int)⟩ :
        GFElement)) ⟨rfl, hyc.1, hyc.2⟩
    obtain ⟨rows3, heq, hwf3, hother, hout⟩ := ih _ hwf'
      (fun j hj => hcols j (List.mem_cons_of_mem c hj))
    have holen : o < rows.length := by rw [hwf.rows_len]; exact ho
    refine ⟨rows3, ?_, hwf3, ?_, ?_⟩
    · simp only [elimInner, hgeto, hgetr, hmul, hsub, hset]
      exact heq
    · intro i hi
      rw [hother i hi, rowD_set_ne hi]
    · intro j hj
      have hjc : j ≠ c := fun h => hj (h ▸ List.mem_cons_self c cs)
      have hjcs : j ∉ cs := fun h => hj (List.mem_cons_of_mem c h)
      rw [hout j hjcs, entry, rowD_set_self holen, getD_set_ne hjc]
      rfl

theorem elimLoop_spec {p k n r c : Nat} (hr : r < n) (hc : c < k) (hp : 1 < (p : Int)) :
    ∀ (os : List Nat) (rows : List (List GFElement)), WfRows p k n rows →
      (∀ o ∈ os, o < n) → os.Nodup → entry rows r c = ⟨1, (p : Int)⟩ →
      ∃ rows4, elimLoop r c (List.range' c (k - c)) os rows = some rows4 ∧
        WfRows p k n rows4 ∧
        (∀ i, i ∉ os → rowD rows4 i = rowD rows i) ∧
        rowD rows4 r = rowD rows r ∧
        (∀ i j, j < c → entry rows4 i j = entry rows i j) ∧
        (∀ o ∈ os, o ≠ r → eVal rows4 o c = 0) := by
  intro os
  induction os with
  | nil =>
    intro rows hwf _ _ _
    exact ⟨rows, rfl, hwf, fun _ _ => rfl, rfl, fun _ _ _ => rfl, by simp⟩
  | cons o os ih =>
    intro rows hwf hos hnd hone
    have hp0 : (0 : Int) < (p : Int) := by omega
    by_cases hor : o = r
    · subst hor
      obtain ⟨rows4, heq, hwf4, hnotin, hrowr, hcolsmall, hzero⟩ := ih rows hwf
        (fun o' ho' => hos o' (List.mem_cons_of_mem o ho')) (List.Nodup.of_cons hnd) hone
      refine ⟨rows4, ?_, hwf4, ?_, hrowr, hcolsmall, ?_⟩
      · simp only [elimLoop, if_pos rfl]
        exact heq
      · intro i hi
        exact hnotin i (fun h => hi (List.mem_cons_of_mem o h))
      · intro o' ho' hne
        rcases List.mem_cons.mp ho' with rfl | h
        · exact absurd rfl hne
        · exact hzero o' h hne
    · have hon : o < n := hos o (List.mem_cons_self o os)
      have hgeto := hwf.getEntry_eq hon hc
      have hxo := hwf.entry_wf hon hc
      have honotin : o ∉ os := (List.nodup_cons.mp hnd).1
      by_cases hxz : (entry rows o c).value = 0
      · obtain ⟨rows4, heq, hwf4, hnotin, hrowr, hcolsmall, hzero⟩ := ih rows hwf
          (fun o' ho' => hos o' (List.mem_cons_of_mem o ho')) (List.Nodup.of_cons hnd) hone
        refine ⟨rows4, ?_, hwf4, ?_, hrowr, hcolsmall, ?_⟩
        · simp only [elimLoop, if_neg hor, hgeto]
          rw [if_neg (not_not_intro hxz)]
          exact heq
        · intro i hi
          exact hnotin i (fun h => hi (List.mem_cons_of_mem o h))
        · intro o' ho' hne
          rcases List.mem_cons.mp ho' with rfl | h
          · rw [eVal, entry_congr (hnotin o' honotin) c]
            exact hxz
          · exact hzero o' h hne
      · -- elimination branch: unfold the first column of elimInner by hand
        have hsplit : List.range' c (k - c) = c :: List.range' (c + 1) (k - (c + 1)) := by
          have h1 : k - c = (k - (c + 1)) + 1 := by omega
          rw [h1, List.range'_succ]
        have hgetr := hwf.getEntry_eq hr hc
        have hgetr1 : getEntry rows r c = some ⟨1, (p : Int)⟩ := by rw [hgetr, hone]
        have hmul := mul_some (a := entry rows o c) (b := (⟨1, (p : Int)⟩ : GFElement))
          hxo.1 rfl hp0
        have hmulval : ((entry rows o c).value * (1 : Int)) % (p : Int) =
            (entry rows o c).value := by
          rw [mul_one]
          exact Int.emod_eq_of_lt hxo.2.1 hxo.2.2
        have hsub := sub_some (a := entry rows o c)
          (b := (⟨(entry rows o c).value, (p : Int)⟩ : GFElement)) hxo.1 rfl hp0
        have hsubval : ((entry rows o c).value - (entry rows o c).value) % (p : Int) =
            0 := by simp
        have hset := setEntry_some hwf hon hc (⟨0, (p : Int)⟩ : GFElement)
        have hwfB := hwf.set_entry (j := c) hon (v := (⟨0, (p : Int)⟩ : GFElement))
          ⟨rfl, le_refl _, hp0⟩
        set rowsB := rows.set o ((rowD rows o).set c (⟨0, (p : Int)⟩ : GFElement))
          with hrowsB
        obtain ⟨rows3, heq3, hwf3, hother3, hout3⟩ :=
          elimInner_spec hon hr hor hp0 hxo.1
            (List.range' (c + 1) (k - (c + 1))) rowsB hwfB
            (fun j hj => (List.mem_range'_1.mp hj).2.trans_le (by omega))
        have holen : o < rows.length := by rw [hwf.rows_len]; exact hon
        have hBr : rowD rowsB r = rowD rows r := rowD_set_ne (Ne.symm hor) _
        have hinner : elimInner o r (entry rows o c) (List.range' c (k - c)) rows =
            some rows3 := by
          rw [hsplit]
          simp only [elimInner, hgeto, hgetr1, hmul, hmulval, hsub, hsubval, hset]
          exact heq3
        have h3one : entry rows3 r c = ⟨1, (p : Int)⟩ := by
          rw [entry_congr (hother3 r (Ne.symm hor)) c, entry_congr hBr c, hone]
        have h3zero : eVal rows3 o c = 0 := by
          have hc1 : c ∉ List.range' (c + 1) (k - (c + 1)) := by
            intro h
            have := (List.mem_range'_1.mp h).1
            omega
          rw [eVal, hout3 c hc1, entry, rowD_set_self holen, getD_set_self]
          · rw [hwf.row_len hon]; exact hc
        obtain ⟨rows4, heq4, hwf4, hnotin4, hrowr4, hcolsmall4, hzero4⟩ := ih rows3 hwf3
          (fun o' ho' => hos o' (List.mem_cons_of_mem o ho')) (List.Nodup.of_cons hnd) h3one
        have hrows3small : ∀ i j, j < c → entry rows3 i j = entry rows i j := by
          intro i j hj
          rcases eq_or_ne i o with rfl | hio
          · have hj1 : j ∉ List.range' (c + 1) (k - (c + 1)) := by
              intro h
              have := (List.mem_range'_1.mp h).1
              omega
            rw [hout3 j hj1, entry, rowD_set_self holen, getD_set_ne (by omega)]
            rfl
          · rw [entry_congr (hother3 i hio) j, entry_congr (rowD_set_ne hio _) j]
        refine ⟨rows4, ?_, hwf4, ?_, ?_, ?_, ?_⟩
        · simp only [elimLoop, if_neg hor, hgeto]
          rw [if_pos hxz, hinner]
          exact heq4
        · intro i hi
          have hio : i ≠ o := fun h => hi (h ▸ List.mem_cons_self o os)
          have hios : i ∉ os := fun h => hi (List.mem_cons_of_mem o h)
          rw [hnotin4 i hios, hother3 i hio, rowD_set_ne hio]
        · rw [hrowr4, hother3 r (Ne.symm hor), hBr]
        · intro i j hj
          rw [hcolsmall4 i j hj, hrows3small i j hj]
        · intro o' ho' hne
          rcases List.mem_cons.mp ho' with rfl | h
          · rw [eVal, entry_congr (hnotin4 o' honotin) c, ← eVal]
            exact h3zero
          · exact hzero4 o' h hne

/-! ## Pivot step and column scan -/

theorem pivotStep_spec {p k n r c : Nat} (hP : Nat.Prime p) (hr : r < n) (hc : c < k)
    {rows1 : List (List GFElement)} (hwf1 : WfRows p k n rows1)
    (hyz : (entry rows1 r c).value ≠ 0) :
    ∃ rows2 rows', scaleLoop r (entry rows1 r c) (List.range' c (k - c)) rows1 =
        some rows2 ∧
      elimLoop r c (List.range' c (k - c)) (List.range n) rows2 = some rows' ∧
      WfRows p k n rows' ∧
      (∀ i j, j < c → entry rows' i j = entry rows1 i j) ∧
      eVal rows' r c = 1 ∧
      (∀ i, i < n → i ≠ r → eVal rows' i c = 0) := by
  have hp : (1 : Int) < (p : Int) := by
    have := hP.two_le
    omega
  have hp0 : (0 : Int) < (p : Int) := by omega
  have hywf := hwf1.entry_wf hr hc
  have hypos : 0 < (entry rows1 r c).value := lt_of_le_of_ne hywf.2.1 (Ne.symm hyz)
  have hg := gcd_prime hP hypos hywf.2.2
  have hget := hwf1.getEntry_eq hr hc
  have hdiv := div_self_eq_one hywf.1 hyz hp hg
  have hset := setEntry_some hwf1 hr hc (⟨1, (p : Int)⟩ : GFElement)
  have hwfB := hwf1.set_entry (j := c) hr (v := (⟨1, (p : Int)⟩ : GFElement))
    ⟨rfl, by norm_num, hp⟩
  set rowsB := rows1.set r ((rowD rows1 r).set c (⟨1, (p : Int)⟩ : GFElement)) with hrowsB
  obtain ⟨rows2, heq2, hwf2, hother2, hout2⟩ :=
    scaleLoop_spec hr hp hywf.1 hyz hg
      (List.range' (c + 1) (k - (c + 1))) rowsB hwfB
      (fun j hj => (List.mem_range'_1.mp hj).2.trans_le (by omega))
  have hsplit : List.range' c (k - c) = c :: List.range' (c + 1) (k - (c + 1)) := by
    have h1 : k - c = (k - (c + 1)) + 1 := by omega
    rw [h1, List.range'_succ]
  have hrlen : r < rows1.length := by rw [hwf1.rows_len]; exact hr
  have hscale : scaleLoop r (entry rows1 r c) (List.range' c (k - c)) rows1 =
      some rows2 := by
    rw [hsplit]
    simp only [scaleLoop, hget, hdiv, hset]
    exact heq2
  have hcnot : c ∉ List.range' (c + 1) (k - (c + 1)) := by
    intro h
    have := (List.mem_range'_1.mp h).1
    omega
  have h2one : entry rows2 r c = ⟨1, (p : Int)⟩ := by
    rw [hout2 c hcnot, entry, rowD_set_self hrlen, getD_set_self]
    · rw [hwf1.row_len hr]; exact hc
  obtain ⟨rows4, heq4, hwf4, hnotin4, hrowr4, hcolsmall4, hzero4⟩ :=
    elimLoop_spec hr hc hp (List.range n) rows2 hwf2
      (fun o ho => List.mem_range.mp ho) (List.nodup_range n) h2one
  have hsmall2 : ∀ i j, j < c → entry rows2 i j = entry rows1 i j := by
    intro i j hj
    rcases eq_or_ne i r with rfl | hir
    · have hj1 : j ∉ List.range' (c + 1) (k - (c + 1)) := by
        intro h
        have := (List.mem_range'_1.mp h).1
        omega
      rw [hout2 j hj1, entry, rowD_set_self hrlen, getD_set_ne (by omega)]
      rfl
    · rw [entry_congr (hother2 i hir) j, entry_congr (rowD_set_ne hir _) j]
  refine ⟨rows2, rows4, hscale, heq4, hwf4, ?_, ?_, ?_⟩
  · intro i j hj
    rw [hcolsmall4 i j hj, hsmall2 i j hj]
  · rw [eVal, entry_congr hrowr4 c, ← eVal]
    rw [eVal, h2one]
  · intro i hi hir
    exact hzero4 i (List.mem_range.mpr hi) hir

theorem colLoop_spec {p k n r : Nat} (hP : Nat.Prime p) (hr : r < n) :
    ∀ (m : Nat), ∀ (c : Nat), m = k - c → ∀ rows, WfRows p k n rows →
      (∀ i, r ≤ i → i < n → ∀ j, j < c → eVal rows i j = 0) →
      ∃ rows', colLoop r n k (List.range' c m) rows = some rows' ∧ WfRows p k n rows' ∧
        ((rows' = rows ∧ ∀ i, r ≤ i → i < n → ∀ j, j < k → eVal rows i j = 0) ∨
          ∃ cp, c ≤ cp ∧ PivotOutcome k n r cp rows rows') := by
  intro m
  induction m with
  | zero =>
    intro c hm rows hwf hz
    refine ⟨rows, rfl, hwf, Or.inl ⟨rfl, fun i hi1 hi2 j hj => hz i hi1 hi2 j (by omega)⟩⟩
  | succ m ih =>
    intro c hm rows hwf hz
    have hc : c < k := by omega
    have hget := hwf.getEntry_eq hr hc
    have hlsmem : ∀ l ∈ List.range' (r + 1) (n - (r + 1)), r < l ∧ l < n := by
      intro l hl
      have := List.mem_range'_1.mp hl
      omega
    rw [List.range'_succ]
    by_cases hx0 : (entry rows r c).value = 0
    · -- zero entry: run the swap cascade
      obtain ⟨rows1, hseq, hwf1, hlt1, hQ1⟩ :=
        swapLoop_spec hr hc (List.range' (r + 1) (n - (r + 1))) rows hwf hlsmem
      have hget1 := hwf1.getEntry_eq hr hc
      by_cases hy0 : (entry rows1 r c).value = 0
      · -- still zero: this column has no pivot candidate; advance
        obtain ⟨hid, hzl⟩ := swapLoop_zero _ rows rows1 hseq
          (fun l hl => (hlsmem l hl).1) hy0
        subst hid
        have hz' : ∀ i, r ≤ i → i < n → ∀ j, j < c + 1 → eVal rows1 i j = 0 := by
          intro i hi1 hi2 j hj
          rcases Nat.lt_or_ge j c with hjc | hjc
          · exact hz i hi1 hi2 j hjc
          · have hjc' : j = c := by omega
            subst hjc'
            rcases Nat.eq_or_lt_of_le hi1 with rfl | hi1'
            · exact hx0
            · exact hzl i (List.mem_range'_1.mpr ⟨by omega, by omega⟩)
        obtain ⟨rows', heq', hwf', hdisj⟩ := ih (c + 1) (by omega) rows1 hwf1 hz'
        refine ⟨rows', ?_, hwf', ?_⟩
        · simp only [colLoop, hget, hx0, if_pos, hseq, hget1, hy0]
          exact heq'
        · rcases hdisj with ⟨h1, h2⟩ | ⟨cp, hcp, hout⟩
          · exact Or.inl ⟨h1, fun i hi1 hi2 j hj => h2 i hi1 hi2 j hj⟩
          · exact Or.inr ⟨cp, by omega, hout⟩
      · -- pivot found at column c after the cascade
        obtain ⟨rows2, rowsP, hscale, helim, hwfP, hsmallP, honeP, hzeroP⟩ :=
          pivotStep_spec hP hr hc hwf1 hy0
        have hzero1 : ∀ i, r ≤ i → i < n → ∀ j, j < c → eVal rows1 i j = 0 := by
          intro i hi1 hi2 j hj
          have hQ := hQ1 (fun row => ∀ j', j' < c → (row.getD j' gfd).value = 0)
            (fun i' hi'1 hi'2 j' hj' => hz i' hi'1 hi'2 j' hj') i hi1 hi2
          exact hQ j hj
        have hi0 : ∃ i0, r ≤ i0 ∧ i0 < n ∧ eVal rows i0 c ≠ 0 := by
          by_contra hcon
          push_neg at hcon
          have hQ := hQ1 (fun row => (row.getD c gfd).value = 0)
            (fun i' hi'1 hi'2 => hcon i' hi'1 hi'2) r le_rfl hr
          exact hy0 hQ
        refine ⟨rowsP, ?_, hwfP, Or.inr ⟨c, le_rfl, hc, hi0, ?_, ?_, ?_, honeP, hzeroP⟩⟩
        · simp only [colLoop, hget, hx0, if_pos, hseq, hget1]
          rw [if_neg hy0, hscale]
          exact helim
        · intro i hi j hj
          rw [hsmallP i j hj, entry_congr (hlt1 i hi) j]
        · intro i hi1 hi2 j hj
          rw [eVal, hsmallP i j hj, ← eVal]
          exact hzero1 i hi1 hi2 j hj
        · intro i hi1 hi2 j hj
          exact hz i hi1 hi2 j hj
    · -- non-zero entry: immediate pivot at column c, no cascade
      obtain ⟨rows2, rowsP, hscale, helim, hwfP, hsmallP, honeP, hzeroP⟩ :=
        pivotStep_spec hP hr hc hwf hx0
      refine ⟨rowsP, ?_, hwfP,
        Or.inr ⟨c, le_rfl, hc, ⟨r, le_rfl, hr, hx0⟩, ?_, ?_, ?_, honeP, hzeroP⟩⟩
      · simp only [colLoop, hget]
        rw [if_neg hx0]
        simp only [hget]
        rw [if_neg hx0, hscale]
        exact helim
      · intro i hi j hj
        exact hsmallP i j hj
      · intro i hi1 hi2 j hj
        rw [eVal, hsmallP i j hj, ← eVal]
        exact hz i hi1 hi2 j hj
      · intro i hi1 hi2 j hj
        exact hz i hi1 hi2 j hj

/-! ## Row-loop invariant and the forward characterization of to_rref -/

theorem rowInv_step {p k n r : Nat} (hP : Nat.Prime p) (hr : r < n)
    {rows : List (List GFElement)} (hinv : RowInv p k n r rows) :
    ∃ rows', colLoop r n k (List.range k) rows = some rows' ∧
      RowInv p k n (r + 1) rows' := by
  obtain ⟨hwf, cs, hcsle, hpiv, hcase⟩ := hinv
  obtain ⟨hcols, hinc, hone1, hleft, hcross⟩ := hpiv
  obtain ⟨rows', heq, hwf', hdisj⟩ := colLoop_spec hP hr k 0 (by omega) rows hwf
    (fun i _ _ j hj => absurd hj (by omega))
  rw [List.range_eq_range']
  refine ⟨rows', heq, ?_⟩
  rcases hdisj with ⟨hid, hzall⟩ | ⟨cp, -, hcp_lt, hi0, ha, hb', hbpre, hone, hzcol⟩
  · -- no pivot for this row: rows r.. are all zero and nothing changed
    subst hid
    refine ⟨hwf, cs, by omega, ⟨hcols, hinc, hone1, hleft, hcross⟩, Or.inl ⟨by omega, ?_⟩⟩
    intro i hi1 hi2 j hj
    rcases hcase with ⟨-, hz⟩ | ⟨hq, -⟩
    · exact hz i hi1 hi2 j hj
    · exact hzall i (by omega) hi2 j hj
  · -- a pivot was found at column cp
    rcases hcase with ⟨hlt, hz⟩ | ⟨hq, hP5⟩
    · -- impossible: all rows from r on were zero
      exfalso
      obtain ⟨i0, hi01, hi02, hi0nz⟩ := hi0
      exact hi0nz (hz i0 (by omega) hi02 cp hcp_lt)
    · have hlen : (cs ++ [cp]).length = cs.length + 1 := by simp
      have hgetD_lt : ∀ i', i' < cs.length → (cs ++ [cp]).getD i' 0 = cs.getD i' 0 :=
        fun i' h => List.getD_append _ _ _ _ h
      have hgetD_eq : (cs ++ [cp]).getD cs.length 0 = cp := by
        rw [List.getD_append_right _ _ _ _ le_rfl]
        simp
      have hlt_cp : ∀ i', i' < cs.length → cs.getD i' 0 < cp := by
        intro i' hi'
        by_contra hge
        push_neg at hge
        obtain ⟨i0, hi01, hi02, hi0nz⟩ := hi0
        exact hi0nz (hP5 i0 hi01 hi02 i' hi' cp hge)
      refine ⟨hwf', cs ++ [cp], by omega, ⟨?_, ?_, ?_, ?_, ?_⟩, Or.inr ⟨by omega, ?_⟩⟩
      · intro c hc
        rcases List.mem_append.mp hc with h | h
        · exact hcols c h
        · rw [List.mem_singleton.mp h]
          exact hcp_lt
      · intro i i' hii' hi'
        rw [hlen] at hi'
        rcases Nat.lt_or_ge i' cs.length with h | h
        · rw [hgetD_lt i (by omega), hgetD_lt i' h]
          exact hinc i i' hii' h
        · have hi'eq : i' = cs.length := by omega
          subst hi'eq
          rw [hgetD_lt i (by omega), hgetD_eq]
          exact hlt_cp i (by omega)
      · intro i hi
        rw [hlen] at hi
        rcases Nat.lt_or_ge i cs.length with h | h
        · rw [hgetD_lt i h, eVal, ha i (by omega) _ (hlt_cp i h), ← eVal]
          exact hone1 i h
        · have hieq : i = cs.length := by omega
          subst hieq
          rw [hgetD_eq, hq]
          exact hone
      · intro i hi j hj
        rw [hlen] at hi
        rcases Nat.lt_or_ge i cs.length with h | h
        · rw [hgetD_lt i h] at hj
          rw [eVal, ha i (by omega) j (by have := hlt_cp i h; omega), ← eVal]
          exact hleft i h j hj
        · have hieq : i = cs.length := by omega
          subst hieq
          rw [hgetD_eq] at hj
          exact hb' cs.length (by omega) (by omega) j hj
      · intro i hi i' hi'n hi'ne
        rw [hlen] at hi
        rcases Nat.lt_or_ge i cs.length with h | h
        · rw [hgetD_lt i h]
          rcases Nat.lt_or_ge i' r with h' | h'
          · rw [eVal, ha i' h' _ (hlt_cp i h), ← eVal]
            exact hcross i h i' hi'n hi'ne
          · exact hb' i' h' hi'n _ (hlt_cp i h)
        · have hieq : i = cs.length := by omega
          subst hieq
          rw [hgetD_eq]
          exact hzcol i' hi'n (by omega)
      · intro i hi1 hi2 i' hi' j hj
        rw [hlen] at hi'
        rcases Nat.lt_or_ge i' cs.length with h | h
        · rw [hgetD_lt i' h] at hj
          exact hb' i (by omega) hi2 j (by have := hlt_cp i' h; omega)
        · have hieq : i' = cs.length := by omega
          subst hieq
          rw [hgetD_eq] at hj
          rcases Nat.lt_or_ge j cp with hjlt | hjge
          · exact hb' i (by omega) hi2 j hjlt
          · have hjeq : j = cp := by omega
            subst hjeq
            exact hzcol i hi2 (by omega)

theorem rowLoop_spec {p k n : Nat} (hP : Nat.Prime p) :
    ∀ (m r : Nat), r + m = n → ∀ rows, RowInv p k n r rows →
      ∃ rows', rowLoop n k (List.range' r m) rows = some rows' ∧
        RowInv p k n n rows' := by
  intro m
  induction m with
  | zero =>
    intro r hrn rows hinv
    obtain rfl : r = n := by omega
    exact ⟨rows, rfl, hinv⟩
  | succ m ih =>
    intro r hrn rows hinv
    have hr : r < n := by omega
    obtain ⟨rows1, hstep, hinv1⟩ := rowInv_step hP hr hinv
    obtain ⟨rows', heq, hinv'⟩ := ih (r + 1) (by omega) rows1 hinv1
    rw [List.range'_succ]
    refine ⟨rows', ?_, hinv'⟩
    simp only [rowLoop, hstep]
    exact heq

theorem rowInv_final {p k n : Nat} {rows : List (List GFElement)}
    (h : RowInv p k n n rows) : RREFInv p k n rows := by
  obtain ⟨hwf, cs, hcsle, hpiv, hcase⟩ := h
  refine ⟨hwf, cs, hcsle, hpiv, ?_⟩
  rcases hcase with ⟨-, hz⟩ | ⟨hq, -⟩
  · exact hz
  · intro i hi1 hi2
    omega

/-- Forward theorem: on a well-formed matrix over a prime modulus,
`to_rref` succeeds and its output has the RREF pivot structure. -/
theorem to_rref_spec {p k : Nat} (hP : Nat.Prime p) (M : Matrix)
    (hwf : MatrixWf M p k) :
    ∃ R, M.to_rref = some R ∧ RREFInv p k M.rows.length R.rows := by
  obtain ⟨hne, hrect, helem⟩ := hwf
  have hn : 0 < M.rows.length := List.length_pos.mpr hne
  have hrow0 : M.rows[0]? = some M.rows[0] := List.getElem?_eq_getElem hn
  have hrow0len : (M.rows[0]).length = k := hrect _ (List.getElem_mem hn)
  have hwfrows : WfRows p k M.rows.length M.rows := ⟨rfl, hrect, helem⟩
  have hinv0 : RowInv p k M.rows.length 0 M.rows := by
    refine ⟨hwfrows, [], le_rfl, ⟨by simp, ?_, ?_, ?_, ?_⟩, Or.inr ⟨rfl, ?_⟩⟩
    · intro i i' _ hi'
      simp at hi'
    · intro i hi
      simp at hi
    · intro i hi
      simp at hi
    · intro i hi
      simp at hi
    · intro i _ _ i' hi'
      simp at hi'
  obtain ⟨rows', heq, hinv'⟩ := rowLoop_spec hP M.rows.length 0 (by omega) M.rows hinv0
  refine ⟨⟨rows'⟩, ?_, rowInv_final hinv'⟩
  simp only [Matrix.to_rref, hrow0]
  rw [hrow0len, List.range_eq_range', heq]
  rfl

/-! ## Fixed-point lemmas: reducing an RREF-structured matrix changes nothing -/

theorem set_entry_self {p k n : Nat} {rows : List (List GFElement)}
    (hwf : WfRows p k n rows) {i j : Nat} (hi : i < n) (hj : j < k) :
    rows.set i ((rowD rows i).set j (entry rows i j)) = rows := by
  have hi' : i < rows.length := by rw [hwf.rows_len]; exact hi
  have hjl : j < (rowD rows i).length := by rw [hwf.row_len hi]; exact hj
  have h1 : (rowD rows i).set j (entry rows i j) = rowD rows i := by
    have h2 : entry rows i j = (rowD rows i)[j] := by
      rw [entry, List.getD_eq_getElem?_getD, List.getElem?_eq_getElem hjl]
      rfl
    rw [h2]
    exact list_set_self _ j hjl
  rw [h1, rowD_eq_getElem hi']
  exact list_set_self _ i hi'

theorem scaleLoop_id {p k n r : Nat} (hr : r < n) (hp : 1 < (p : Int)) :
    ∀ (cols : List Nat) (rows : List (List GFElement)), WfRows p k n rows →
      (∀ j ∈ cols, j < k) →
      scaleLoop r (⟨1, (p : Int)⟩ : GFElement) cols rows = some rows := by
  intro cols
  induction cols with
  | nil => intro rows _ _; rfl
  | cons c cs ih =>
    intro rows hwf hcols
    have hc : c < k := hcols c (List.mem_cons_self c cs)
    have hget := hwf.getEntry_eq hr hc
    have hx := hwf.entry_wf hr hc
    have hdiv := div_one hx.1 hp hx.2.1 hx.2.2
    have hset := setEntry_some hwf hr hc (entry rows r c)
    rw [set_entry_self hwf hr hc] at hset
    simp only [scaleLoop, hget, hdiv, hset]
    exact ih rows hwf (fun j hj => hcols j (List.mem_cons_of_mem c hj))

theorem elimLoop_id {p k n r c : Nat} (hr : r < n) (hc : c < k) (cols : List Nat) :
    ∀ (os : List Nat) (rows : List (List GFElement)), WfRows p k n rows →
      (∀ o ∈ os, o < n) → (∀ o ∈ os, o ≠ r → eVal rows o c = 0) →
      elimLoop r c cols os rows = some rows := by
  intro os
  induction os with
  | nil => intro rows _ _ _; rfl
  | cons o os ih =>
    intro rows hwf hos hz
    by_cases hor : o = r
    · subst hor
      simp only [elimLoop, if_pos rfl]
      exact ih rows hwf (fun o' ho' => hos o' (List.mem_cons_of_mem o ho'))
        (fun o' ho' => hz o' (List.mem_cons_of_mem o ho'))
    · have hget := hwf.getEntry_eq (hos o (List.mem_cons_self o os)) hc
      have hzo : (entry rows o c).value = 0 := hz o (List.mem_cons_self o os) hor
      simp only [elimLoop, if_neg hor, hget]
      rw [if_neg (not_not_intro hzo)]
      exact ih rows hwf (fun o' ho' => hos o' (List.mem_cons_of_mem o ho'))
        (fun o' ho' => hz o' (List.mem_cons_of_mem o ho'))

theorem colLoop_pivot_id {p k n r cp : Nat} (hr : r < n) (hcp : cp < k)
    (hp : 1 < (p : Int)) :
    ∀ (m c : Nat), m = k - c → c ≤ cp → ∀ rows, WfRows p k n rows →
      (∀ i, r ≤ i → i < n → ∀ j, j < cp → eVal rows i j = 0) →
      eVal rows r cp = 1 → (∀ i, i < n → i ≠ r → eVal rows i cp = 0) →
      colLoop r n k (List.range' c m) rows = some rows := by
  intro m
  induction m with
  | zero =>
    intro c hm hccp rows _ _ _ _
    exfalso
    omega
  | succ m ih =>
    intro c hm hccp rows hwf hz hone hzcol
    have hc : c < k := by omega
    have hget := hwf.getEntry_eq hr hc
    rw [List.range'_succ]
    by_cases hceq : c = cp
    · subst hceq
      have hone' : (entry rows r c).value = 1 := hone
      have hent : entry rows r c = ⟨1, (p : Int)⟩ := gf_eq hone' (hwf.entry_wf hr hc).1
      have hscale := scaleLoop_id hr hp (List.range' c (k - c)) rows hwf
        (fun j hj => (List.mem_range'_1.mp hj).2.trans_le (by omega))
      have helim := elimLoop_id hr hc (List.range' c (k - c)) (List.range n) rows hwf
        (fun o ho => List.mem_range.mp ho)
        (fun o ho hor => hzcol o (List.mem_range.mp ho) hor)
      simp only [colLoop, hget]
      rw [if_neg (by rw [hone']; norm_num)]
      simp only [hget]
      rw [if_neg (by rw [hone']; norm_num), hent, hscale]
      exact helim
    · have hclt : c < cp := by omega
      have hx0 : (entry rows r c).value = 0 := hz r le_rfl hr c hclt
      have hswap := swapLoop_id (p := p) (n := n) (r := r) hc (List.range' (r + 1) (n - (r + 1)))
        rows hwf
        (fun l hl => by have := List.mem_range'_1.mp hl; omega)
        (fun l hl => by
          have := List.mem_range'_1.mp hl
          exact hz l (by omega) (by omega) c hclt)
      simp only [colLoop, hget, hx0, if_pos, hswap]
      exact ih (c + 1) (by omega) (by omega) rows hwf hz hone hzcol

theorem colLoop_zero_id {p k n r : Nat} (hr : r < n) :
    ∀ (m c : Nat), m = k - c → ∀ rows, WfRows p k n rows →
      (∀ i, r ≤ i → i < n → ∀ j, j < k → eVal rows i j = 0) →
      colLoop r n k (List.range' c m) rows = some rows := by
  intro m
  induction m with
  | zero => intro c _ rows _ _; rfl
  | succ m ih =>
    intro c hm rows hwf hz
    have hc : c < k := by omega
    have hget := hwf.getEntry_eq hr hc
    have hx0 : (entry rows r c).value = 0 := hz r le_rfl hr c hc
    have hswap := swapLoop_id (p := p) (n := n) (r := r) hc (List.range' (r + 1) (n - (r + 1)))
      rows hwf
      (fun l hl => by have := List.mem_range'_1.mp hl; omega)
      (fun l hl => by
        have := List.mem_range'_1.mp hl
        exact hz l (by omega) (by omega) c hc)
    rw [List.range'_succ]
    simp only [colLoop, hget, hx0, if_pos, hswap]
    exact ih (c + 1) (by omega) rows hwf hz

theorem rowLoop_id {p k n : Nat} (hp : 1 < (p : Int))
    {rows : List (List GFElement)} (hfin : RREFInv p k n rows) :
    ∀ (m r : Nat), r + m = n → rowLoop n k (List.range' r m) rows = some rows := by
  obtain ⟨hwf, cs, hcsle, ⟨hcols, hinc, hone1, hleft, hcross⟩, hzrows⟩ := hfin
  intro m
  induction m with
  | zero => intro r _; rfl
  | succ m ih =>
    intro r hrn
    have hr : r < n := by omega
    rw [List.range'_succ]
    have hcol : colLoop r n k (List.range k) rows = some rows := by
      rw [List.range_eq_range']
      rcases Nat.lt_or_ge r cs.length with hrcs | hrcs
      · have hcsr : cs.getD r 0 ∈ cs := by
          rw [List.getD_eq_getElem?_getD, List.getElem?_eq_getElem hrcs]
          exact List.getElem_mem hrcs
        have hcp : cs.getD r 0 < k := hcols _ hcsr
        apply colLoop_pivot_id hr hcp hp k 0 (by omega) (by omega) rows hwf
          ?_ (hone1 r hrcs) (fun i hin hir => hcross r hrcs i hin hir)
        intro i hi1 hi2 j hj
        rcases Nat.lt_or_ge i cs.length with hics | hics
        · apply hleft i hics
          rcases Nat.eq_or_lt_of_le hi1 with rfl | hlt
          · exact hj
          · exact hj.trans (hinc r i hlt hics)
        · exact hzrows i hics hi2 j (by omega)
      · apply colLoop_zero_id hr k 0 (by omega) rows hwf
        intro i hi1 hi2 j hj
        exact hzrows i (by omega) hi2 j hj
    simp only [rowLoop, hcol]
    exact ih (r + 1) (by omega)

/-- Fixed-point theorem: an RREF-structured matrix reduces to itself. -/
theorem to_rref_fixed {p k n : Nat} (hp : 1 < (p : Int)) (hn : 0 < n)
    {rows : List (List GFElement)} (hfin : RREFInv p k n rows) :
    Matrix.to_rref ⟨rows⟩ = some ⟨rows⟩ := by
  have hlen : rows.length = n := hfin.1.rows_len
  have hn' : 0 < rows.length := by omega
  have hrow0 : rows[0]? = some rows[0] := List.getElem?_eq_getElem hn'
  have hrow0len : (rows[0]).length = k := hfin.1.2.1 _ (List.getElem_mem hn')
  show (match rows[0]? with
    | none => none
    | some row0 =>
      (rowLoop rows.length row0.length (List.range rows.length) rows).map Matrix.mk) =
    some ⟨rows⟩
  rw [hrow0]
  simp only
  rw [hrow0len, hlen, List.range_eq_range', rowLoop_id hp hfin n 0 (by omega)]
  rfl

/-! ## Shape preservation (for runs whose success is merely assumed) -/

theorem getElem?_mem_list {α : Type _} {l : List α} {i : Nat} {a : α}
    (h : l[i]? = some a) : a ∈ l := by
  have hi : i < l.length := by
    by_contra hge
    rw [List.getElem?_eq_none (by omega)] at h
    exact Option.noConfusion h
  rw [List.getElem?_eq_getElem hi] at h
  rw [← Option.some.inj h]
  exact List.getElem_mem hi

theorem shape_set {k : Nat} {rows : List (List GFElement)} (h : Shape k rows)
    {w : List GFElement} (hw : w.length = k) (i : Nat) : Shape k (rows.set i w) := by
  intro row hrow
  rcases List.mem_or_eq_of_mem_set hrow with h' | h'
  · exact h row h'
  · exact h' ▸ hw

theorem setEntry_inv {rows rows' : List (List GFElement)} {i j : Nat} {v : GFElement}
    (h : setEntry rows i j v = some rows') :
    ∃ row, rows[i]? = some row ∧ j < row.length ∧ rows' = rows.set i (row.set j v) := by
  rw [setEntry] at h
  cases hrow : rows[i]? with
  | none => rw [hrow] at h; exact Option.noConfusion h
  | some row =>
    simp only [hrow] at h
    by_cases hj : j < row.length
    · rw [if_pos hj] at h
      exact ⟨row, rfl, hj, (Option.some.inj h).symm⟩
    · rw [if_neg hj] at h
      exact Option.noConfusion h

theorem setEntry_shape {rows rows' : List (List GFElement)} {i j : Nat} {v : GFElement}
    (h : setEntry rows i j v = some rows') :
    rows'.length = rows.length ∧ ∀ k, Shape k rows → Shape k rows' := by
  obtain ⟨row, hrow, hj, heq⟩ := setEntry_inv h
  subst heq
  refine ⟨by simp, fun k hs => ?_⟩
  exact shape_set hs (by rw [List.length_set]; exact hs row (getElem?_mem_list hrow)) i

theorem swapRows_shape {rows rows' : List (List GFElement)} {i j : Nat}
    (h : swapRows rows i j = some rows') :
    rows'.length = rows.length ∧ ∀ k, Shape k rows → Shape k rows' := by
  obtain ⟨hi, hj, heq⟩ := swapRows_inv h
  subst heq
  refine ⟨by simp, fun k hs => ?_⟩
  exact shape_set (shape_set hs (hs _ (List.getElem_mem hj)) i)
    (hs _ (List.getElem_mem hi)) j

theorem swapLoop_shape {r c : Nat} :
    ∀ (ls : List Nat) (rows rows' : List (List GFElement)),
      swapLoop r c ls rows = some rows' →
      rows'.length = rows.length ∧ ∀ k, Shape k rows → Shape k rows' := by
  intro ls
  induction ls with
  | nil =>
    intro rows rows' h
    obtain rfl : rows = rows' := Option.some.inj h
    exact ⟨rfl, fun _ hs => hs⟩
  | cons l ls ih =>
    intro rows rows' h
    rw [swapLoop] at h
    cases hget : getEntry rows l c with
    | none => rw [hget] at h; exact Option.noConfusion h
    | some x =>
      simp only [hget] at h
      by_cases hx : x.value = 0
      · rw [if_neg (not_not_intro hx)] at h
        exact ih rows rows' h
      · rw [if_pos hx] at h
        cases hsw : swapRows rows r l with
        | none => rw [hsw] at h; exact Option.noConfusion h
        | some A =>
          simp only [hsw] at h
          obtain ⟨h1, h2⟩ := swapRows_shape hsw
          obtain ⟨h3, h4⟩ := ih A rows' h
          exact ⟨h3.trans h1, fun k hs => h4 k (h2 k hs)⟩

theorem scaleLoop_shape {r : Nat} {scale : GFElement} :
    ∀ (cols : List Nat) (rows rows' : List (List GFElement)),
      scaleLoop r scale cols rows = some rows' →
      rows'.length = rows.length ∧ ∀ k, Shape k rows → Shape k rows' := by
  intro cols
  induction cols with
  | nil =>
    intro rows rows' h
    obtain rfl : rows = rows' := Option.some.inj h
    exact ⟨rfl, fun _ hs => hs⟩
  | cons c cs ih =>
    intro rows rows' h
    rw [scaleLoop] at h
    cases hget : getEntry rows r c with
    | none => rw [hget] at h; exact Option.noConfusion h
    | some x =>
      simp only [hget] at h
      cases hdiv : GFElement.div x scale with
      | none => rw [hdiv] at h; exact Option.noConfusion h
      | some y =>
        simp only [hdiv] at h
        cases hset : setEntry rows r c y with
        | none => rw [hset] at h; exact Option.noConfusion h
        | some rowsB =>
          simp only [hset] at h
          obtain ⟨h1, h2⟩ := setEntry_shape hset
          obtain ⟨h3, h4⟩ := ih rowsB rows' h
          exact ⟨h3.trans h1, fun k hs => h4 k (h2 k hs)⟩

theorem elimInner_shape {o r : Nat} {scale : GFElement} :
    ∀ (cols : List Nat) (rows rows' : List (List GFElement)),
      elimInner o r scale cols rows = some rows' →
      rows'.length = rows.length ∧ ∀ k, Shape k rows → Shape k rows' := by
  intro cols
  induction cols with
  | nil =>
    intro rows rows' h
    obtain rfl : rows = rows' := Option.some.inj h
    exact ⟨rfl, fun _ hs => hs⟩
  | cons c cs ih =>
    intro rows rows' h
    rw [elimInner] at h
    cases hgeto : getEntry rows o c with
    | none => rw [hgeto] at h; exact Option.noConfusion h
    | some xo =>
      cases hgetr : getEntry rows r c with
      | none => rw [hgeto, hgetr] at h; exact Option.noConfusion h
      | some xr =>
        simp only [hgeto, hgetr] at h
        cases hmul : GFElement.mul scale xr with
        | none => rw [hmul] at h; exact Option.noConfusion h
        | some prod =>
          simp only [hmul] at h
          cases hsub : GFElement.sub xo prod with
          | none => rw [hsub] at h; exact Option.noConfusion h
          | some y =>
            simp only [hsub] at h
            cases hset : setEntry rows o c y with
            | none => rw [hset] at h; exact Option.noConfusion h
            | some rowsB =>
              simp only [hset] at h
              obtain ⟨h1, h2⟩ := setEntry_shape hset
              obtain ⟨h3, h4⟩ := ih rowsB rows' h
              exact ⟨h3.trans h1, fun k hs => h4 k (h2 k hs)⟩

theorem elimLoop_shape {r c : Nat} {cols : List Nat} :
    ∀ (os : List Nat) (rows rows' : List (List GFElement)),
      elimLoop r c cols os rows = some rows' →
      rows'.length = rows.length ∧ ∀ k, Shape k rows → Shape k rows' := by
  intro os
  induction os with
  | nil =>
    intro rows rows' h
    obtain rfl : rows = rows' := Option.some.inj h
    exact ⟨rfl, fun _ hs => hs⟩
  | cons o os ih =>
    intro rows rows' h
    rw [elimLoop] at h
    by_cases hor : o = r
    · rw [if_pos hor] at h
      exact ih rows rows' h
    · rw [if_neg hor] at h
      cases hget : getEntry rows o c with
      | none => rw [hget] at h; exact Option.noConfusion h
      | some x =>
        simp only [hget] at h
        by_cases hx : x.value = 0
        · rw [if_neg (not_not_intro hx)] at h
          exact ih rows rows' h
        · rw [if_pos hx] at h
          cases hinner : elimInner o r x cols rows with
          | none => rw [hinner] at h; exact Option.noConfusion h
          | some rowsB =>
            simp only [hinner] at h
            obtain ⟨h1, h2⟩ := elimInner_shape cols rows rowsB hinner
            obtain ⟨h3, h4⟩ := ih rowsB rows' h
            exact ⟨h3.trans h1, fun k hs => h4 k (h2 k hs)⟩

theorem colLoop_shape {r n k0 : Nat} :
    ∀ (cols : List Nat) (rows rows' : List (List GFElement)),
      colLoop r n k0 cols rows = some rows' →
      rows'.length = rows.length ∧ ∀ k, Shape k rows → Shape k rows' := by
  intro cols
  induction cols with
  | nil =>
    intro rows rows' h
    obtain rfl : rows = rows' := Option.some.inj h
    exact ⟨rfl, fun _ hs => hs⟩
  | cons c cs ih =>
    intro rows rows' h
    rw [colLoop] at h
    cases hget : getEntry rows r c with
    | none => rw [hget] at h; exact Option.noConfusion h
    | some x =>
      simp only [hget] at h
      rcases hstep : (if x.value = 0 then
          swapLoop r c (List.range' (r + 1) (n - (r + 1))) rows else some rows) with - | rows1
      · rw [hstep] at h; exact Option.noConfusion h
      · simp only [hstep] at h
        have hshape1 : rows1.length = rows.length ∧ ∀ k, Shape k rows → Shape k rows1 := by
          by_cases hx : x.value = 0
          · rw [if_pos hx] at hstep
            exact swapLoop_shape _ rows rows1 hstep
          · rw [if_neg hx] at hstep
            obtain rfl : rows = rows1 := Option.some.inj hstep
            exact ⟨rfl, fun _ hs => hs⟩
        cases hget1 : getEntry rows1 r c with
        | none => rw [hget1] at h; exact Option.noConfusion h
        | some y =>
          simp only [hget1] at h
          by_cases hy : y.value = 0
          · rw [if_pos hy] at h
            obtain ⟨h3, h4⟩ := ih rows1 rows' h
            exact ⟨h3.trans hshape1.1, fun k hs => h4 k (hshape1.2 k hs)⟩
          · rw [if_neg hy] at h
            cases hscale : scaleLoop r y (List.range' c (k0 - c)) rows1 with
            | none => rw [hscale] at h; exact Option.noConfusion h
            | some rows2 =>
              simp only [hscale] at h
              obtain ⟨h5, h6⟩ := scaleLoop_shape _ rows1 rows2 hscale
              obtain ⟨h7, h8⟩ := elimLoop_shape _ rows2 rows' h
              exact ⟨(h7.trans h5).trans hshape1.1,
                fun k hs => h8 k (h6 k (hshape1.2 k hs))⟩

theorem rowLoop_shape {n k0 : Nat} :
    ∀ (rs : List Nat) (rows rows' : List (List GFElement)),
      rowLoop n k0 rs rows = some rows' →
      rows'.length = rows.length ∧ ∀ k, Shape k rows → Shape k rows' := by
  intro rs
  induction rs with
  | nil =>
    intro rows rows' h
    obtain rfl : rows = rows' := Option.some.inj h
    exact ⟨rfl, fun _ hs => hs⟩
  | cons r rs ih =>
    intro rows rows' h
    rw [rowLoop] at h
    cases hcol : colLoop r n k0 (List.range k0) rows with
    | none => rw [hcol] at h; exact Option.noConfusion h
    | some rows1 =>
      simp only [hcol] at h
      obtain ⟨h1, h2⟩ := colLoop_shape _ rows rows1 hcol
      obtain ⟨h3, h4⟩ := ih rows1 rows' h
      exact ⟨h3.trans h1, fun k hs => h4 k (h2 k hs)⟩

/-- Whenever `to_rref` succeeds, the output has the same number of rows
and preserves rectangularity. -/
theorem to_rref_shape {M R : Matrix} (h : M.to_rref = some R) :
    R.rows.length = M.rows.length ∧ ∀ k, Shape k M.rows → Shape k R.rows := by
  rw [Matrix.to_rref] at h
  cases hrow0 : M.rows[0]? with
  | none => rw [hrow0] at h; exact Option.noConfusion h
  | some row0 =>
    simp only [hrow0] at h
    cases hloop : rowLoop M.rows.length row0.length (List.range M.rows.length) M.rows with
    | none => rw [hloop] at h; exact Option.noConfusion h
    | some rows' =>
      simp only [hloop, Option.map_some] at h
      obtain rfl : Matrix.mk rows' = R := Option.some.inj h
      exact rowLoop_shape _ M.rows rows' hloop

/-! ## Bridges between the boolean predicates and claim-level predicates -/

theorem contradiction_bool_iff (row : List GFElement) :
    ((row.take (row.length - 1)).all (fun x => x.value == 0) &&
      (match row.getLast? with
       | some x => x.value != 0
       | none => false)) = true ↔ contradictionRow row := by
  rw [Bool.and_eq_true, List.all_eq_true, contradictionRow]
  constructor
  · rintro ⟨h1, h2⟩
    refine ⟨fun x hx => by simpa using h1 x hx, ?_, ?_⟩
    · intro hnil
      rw [hnil] at h2
      simp [List.getLast?] at h2
    · cases hlast : row.getLast? with
      | none => rw [hlast] at h2; exact Bool.noConfusion h2
      | some y =>
        rw [hlast] at h2
        have hy : y = row.getD (row.length - 1) gfd := by
          rw [List.getLast?_eq_getElem?] at hlast
          rw [List.getD_eq_getElem?_getD, hlast]
          rfl
        rw [← hy]
        simpa using h2
  · rintro ⟨h1, hne, hlast⟩
    refine ⟨fun x hx => by simpa using h1 x hx, ?_⟩
    have hlt : row.length - 1 < row.length := by
      have : row.length ≠ 0 := fun h => hne (List.length_eq_zero.mp h)
      omega
    rw [List.getLast?_eq_getElem?, List.getElem?_eq_getElem hlt]
    have hgd : row.getD (row.length - 1) gfd = row[row.length - 1] := by
      rw [List.getD_eq_getElem?_getD, List.getElem?_eq_getElem hlt]
      rfl
    rw [hgd] at hlast
    simpa using hlast

theorem any_row_unsolvable_iff (R : Matrix) :
    R.is_any_row_unsolvable = true ↔ ∃ row ∈ R.rows, contradictionRow row := by
  rw [Matrix.is_any_row_unsolvable, List.any_eq_true]
  constructor
  · rintro ⟨row, hrow, hb⟩
    exact ⟨row, hrow, (contradiction_bool_iff row).mp hb⟩
  · rintro ⟨row, hrow, hc⟩
    exact ⟨row, hrow, (contradiction_bool_iff row).mpr hc⟩

theorem leadingOne_cons_zero {x : GFElement} {xs : List GFElement} (hx : x.value = 0) :
    leadingOne (x :: xs) ↔ leadingOne xs := by
  constructor
  · rintro ⟨j, hj, hz, h1⟩
    cases j with
    | zero =>
      rw [List.getD_cons_zero] at h1
      rw [hx] at h1
      exact absurd h1 (by norm_num)
    | succ j' =>
      refine ⟨j', by simpa using hj, fun i hi => ?_, ?_⟩
      · have := hz (i + 1) (by omega)
        rwa [List.getD_cons_succ] at this
      · rwa [List.getD_cons_succ] at h1
  · rintro ⟨j, hj, hz, h1⟩
    refine ⟨j + 1, by simpa using hj, fun i hi => ?_, ?_⟩
    · cases i with
      | zero => rw [List.getD_cons_zero]; exact hx
      | succ i' =>
        rw [List.getD_cons_succ]
        exact hz i' (by omega)
    · rwa [List.getD_cons_succ]

theorem leadingOne_cons_nonzero {x : GFElement} {xs : List GFElement}
    (hx : x.value ≠ 0) : leadingOne (x :: xs) ↔ x.value = 1 := by
  constructor
  · rintro ⟨j, hj, hz, h1⟩
    cases j with
    | zero => rwa [List.getD_cons_zero] at h1
    | succ j' =>
      exfalso
      have := hz 0 (by omega)
      rw [List.getD_cons_zero] at this
      exact hx this
  · intro h1
    exact ⟨0, by simp, fun i hi => absurd hi (by omega), by rwa [List.getD_cons_zero]⟩

theorem pivot_row_iff (row : List GFElement) :
    (row.all (fun x => x.value == 0) ||
      (match (row.take row.length).find? (fun x => x.value != 0) with
       | some x => x.value == 1
       | none => false)) = true ↔ allZeroRow row ∨ leadingOne row := by
  rw [List.take_length]
  induction row with
  | nil => simp [allZeroRow]
  | cons x xs ih =>
    by_cases hx : x.value = 0
    · have hfind : (x :: xs).find? (fun x => x.value != 0) =
          xs.find? (fun x => x.value != 0) :=
        List.find?_cons_of_neg _ (by simpa using hx)
      have hall : (x :: xs).all (fun x => x.value == 0) =
          xs.all (fun x => x.value == 0) := by
        rw [List.all_cons]
        simp [hx]
      have hz : allZeroRow (x :: xs) ↔ allZeroRow xs := by
        rw [allZeroRow, allZeroRow]
        constructor
        · intro h y hy
          exact h y (List.mem_cons_of_mem x hy)
        · intro h y hy
          rcases List.mem_cons.mp hy with rfl | hy'
          · exact hx
          · exact h y hy'
      rw [hfind, hall, hz, leadingOne_cons_zero hx]
      exact ih
    · have hfind : (x :: xs).find? (fun x => x.value != 0) = some x :=
        List.find?_cons_of_pos _ (by simpa using hx)
      have hall : (x :: xs).all (fun x => x.value == 0) = false := by
        rw [List.all_cons]
        simp [hx]
      have hz : ¬ allZeroRow (x :: xs) := fun h => hx (h x (List.mem_cons_self x xs))
      rw [hfind, hall, leadingOne_cons_nonzero hx]
      simp [hz]

theorem every_row_pivot_iff (U : Matrix) :
    U.every_row_has_a_pivot = true ↔ ∀ row ∈ U.rows, allZeroRow row ∨ leadingOne row := by
  rw [Matrix.every_row_has_a_pivot, List.all_eq_true]
  constructor
  · intro h row hrow
    exact (pivot_row_iff row).mp (h row hrow)
  · intro h row hrow
    exact (pivot_row_iff row).mpr (h row hrow)

theorem unaugmented_eq {R : Matrix} {k : Nat} (hne : R.rows ≠ []) (hsh : Shape k R.rows) :
    R.unaugmented_matrix = some ⟨R.rows.map fun row => row.take (k - 1)⟩ := by
  have hlen : 0 < R.rows.length := List.length_pos.mpr hne
  rw [Matrix.unaugmented_matrix]
  rw [List.getElem?_eq_getElem hlen]
  simp only
  rw [hsh _ (List.getElem_mem hlen)]

/-! ## Solvability and solution lemmas -/

theorem mapM_getLast {k : Nat} (hk : 1 ≤ k) :
    ∀ (rows : List (List GFElement)), Shape k rows →
      rows.mapM List.getLast? =
        some (rows.map fun row => row.getD (row.length - 1) gfd) := by
  intro rows
  induction rows with
  | nil => intro _; rfl
  | cons row rows ih =>
    intro hsh
    have hrk : row.length = k := hsh row (List.mem_cons_self row rows)
    have hlt : row.length - 1 < row.length := by omega
    have hlast : row.getLast? = some (row.getD (row.length - 1) gfd) := by
      rw [List.getLast?_eq_getElem?, List.getElem?_eq_getElem hlt,
        List.getD_eq_getElem?_getD, List.getElem?_eq_getElem hlt]
      rfl
    rw [List.mapM_cons, hlast, ih (fun r hr => hsh r (List.mem_cons_of_mem row hr))]
    rfl

/-- Unfolding of `is_solvable` when the RREF computation succeeds. -/
theorem is_solvable_eq {M R : Matrix} {k : Nat} (hne : M.rows ≠ [])
    (hrect : Shape k M.rows) (hR : M.to_rref = some R) :
    M.is_solvable = some (if R.is_any_row_unsolvable then false
      else (Matrix.mk (R.rows.map fun row => row.take (k - 1))).every_row_has_a_pivot) := by
  obtain ⟨hlen, hsh⟩ := to_rref_shape hR
  have hMlen : 0 < M.rows.length := List.length_pos.mpr hne
  have hRne : R.rows ≠ [] := by
    intro h
    rw [h] at hlen
    simp at hlen
    omega
  have hRsh : Shape k R.rows := hsh k hrect
  have hunaug := unaugmented_eq hRne hRsh
  by_cases hbu : R.is_any_row_unsolvable = true
  · simp only [Matrix.is_solvable, hR, hbu]
    rfl
  · rw [Bool.not_eq_true] at hbu
    simp only [Matrix.is_solvable, hR, hbu, hunaug]
    rfl

/-! ## Claim C1 -/

/-- C1: for every non-empty rectangular augmented matrix whose RREF
computation succeeds, `is_solvable` returns false when the RREF contains a
contradiction row (all entries in all but the last column zero, last-column
entry non-zero); otherwise it returns true if and only if every row of the
unaugmented view of the RREF (all columns but the last) either is all-zero
or has 1 as its first non-zero entry. -/
theorem claim_C1_is_solvable (M R : Matrix) (k : Nat) (hk : 1 ≤ k)
    (hne : M.rows ≠ []) (hrect : Shape k M.rows) (hR : M.to_rref = some R) :
    ((∃ row ∈ R.rows, contradictionRow row) → M.is_solvable = some false) ∧
    ((∀ row ∈ R.rows, ¬ contradictionRow row) →
      (M.is_solvable = some true ↔
        ∀ row ∈ R.rows, allZeroRow (row.take (k - 1)) ∨ leadingOne (row.take (k - 1)))) := by
  have hsolv := is_solvable_eq hne hrect hR
  constructor
  · intro hcontra
    have hb : R.is_any_row_unsolvable = true := (any_row_unsolvable_iff R).mpr hcontra
    rw [hsolv, hb]
    rfl
  · intro hnone
    have hb : R.is_any_row_unsolvable = false := by
      rw [Bool.eq_false_iff]
      intro h
      obtain ⟨row, hrow, hc⟩ := (any_row_unsolvable_iff R).mp h
      exact hnone row hrow hc
    rw [hsolv, hb, if_neg Bool.false_ne_true, Option.some_inj, every_row_pivot_iff]
    show (∀ row ∈ R.rows.map fun row => row.take (k - 1), allZeroRow row ∨ leadingOne row) ↔ _
    rw [List.forall_mem_map]

/-- C1 witness: the 1×2 augmented system `[[1, 1]]` over modulus 2 is
reported solvable. -/
theorem claim_C1_witness :
    Matrix.is_solvable ⟨[[⟨1, 2⟩, ⟨1, 2⟩]]⟩ = some true := by
  have h := (claim_C1_is_solvable ⟨[[⟨1, 2⟩, ⟨1, 2⟩]]⟩ ⟨[[⟨1, 2⟩, ⟨1, 2⟩]]⟩ 2
    (by norm_num) (by simp) (by decide) (by decide)).2 (by decide)
  exact h.mpr (by decide)

/-! ## Claim C2 -/

/-- C2: for every non-empty rectangular augmented matrix whose RREF
computation succeeds, `solution` returns the Rust `None` exactly when
`is_solvable` is false, and when `is_solvable` is true it returns the
sequence of last-column values of the RREF, one per row in row order. -/
theorem claim_C2_solution (M R : Matrix) (k : Nat) (hk : 1 ≤ k)
    (hne : M.rows ≠ []) (hrect : Shape k M.rows) (hR : M.to_rref = some R) :
    (M.solution = some none ↔ M.is_solvable = some false) ∧
    (M.is_solvable = some true →
      M.solution = some (some (R.rows.map fun row => row.getD (row.length - 1) gfd))) := by
  obtain ⟨hlen, hsh⟩ := to_rref_shape hR
  have hMlen : 0 < M.rows.length := List.length_pos.mpr hne
  have hRsh : Shape k R.rows := hsh k hrect
  have hmapM := mapM_getLast hk R.rows hRsh
  have htrue : M.is_solvable = some true →
      M.solution = some (some (R.rows.map fun row => row.getD (row.length - 1) gfd)) := by
    intro hs
    simp only [Matrix.solution, hs, hR, hmapM]
  refine ⟨⟨?_, ?_⟩, htrue⟩
  · intro hsol
    cases hs : M.is_solvable with
    | none =>
      simp only [Matrix.solution, hs] at hsol
      exact Option.noConfusion hsol
    | some b =>
      cases b with
      | false => rfl
      | true =>
        rw [htrue hs] at hsol
        simp at hsol
  · intro hs
    simp only [Matrix.solution, hs]

/-- C2 witness: the system `[[1, 1]]` over modulus 2 has solution
vector `[1]`. -/
theorem claim_C2_witness :
    Matrix.solution ⟨[[⟨1, 2⟩, ⟨1, 2⟩]]⟩ = some (some [⟨1, 2⟩]) := by
  have h := (claim_C2_solution ⟨[[⟨1, 2⟩, ⟨1, 2⟩]]⟩ ⟨[[⟨1, 2⟩, ⟨1, 2⟩]]⟩ 2
    (by norm_num) (by simp) (by decide) (by decide)).2 (by decide)
  rw [h]
  rfl

/-! ## Claims C3 and C10 -/

/-- C3: for every non-empty rectangular matrix over a shared prime modulus
(with canonical element values), `to_rref` is idempotent: the reduction
succeeds, and reducing the result again returns it unchanged, row-wise and
element-wise; hence `to_rref (to_rref M) = to_rref M`. -/
theorem claim_C3_rref_idempotent (M : Matrix) (p k : Nat) (hP : Nat.Prime p)
    (hwf : MatrixWf M p k) :
    ∃ R, M.to_rref = some R ∧ R.to_rref = some R ∧
      M.to_rref.bind Matrix.to_rref = M.to_rref := by
  obtain ⟨R, hR, hfin⟩ := to_rref_spec hP M hwf
  have hp : (1 : Int) < (p : Int) := by
    have := hP.two_le
    omega
  have hn : 0 < M.rows.length := List.length_pos.mpr hwf.1
  have hfix0 : Matrix.to_rref ⟨R.rows⟩ = some ⟨R.rows⟩ := to_rref_fixed hp hn hfin
  have hfix : R.to_rref = some R := by
    cases R
    exact hfix0
  refine ⟨R, hR, hfix, ?_⟩
  rw [hR]
  exact hfix

/-- C10: on every non-empty rectangular matrix whose elements all share a
prime modulus (with canonical values), `to_rref` never hits an error
branch: every checked index access, modulus assertion, zero-divisor check
and inverse search in the embedded computation succeeds, i.e. the
`Option`-threaded `to_rref` returns `some`. -/
theorem claim_C10_no_error (M : Matrix) (p k : Nat) (hP : Nat.Prime p)
    (hwf : MatrixWf M p k) : ∃ R, M.to_rref = some R := by
  obtain ⟨R, hR, -⟩ := to_rref_spec hP M hwf
  exact ⟨R, hR⟩

/-- C3 witness: the 2×2 matrix `[[0,1],[1,2]]` over modulus 3 reduces to
the identity, which reduces to itself. -/
theorem claim_C3_witness :
    Matrix.to_rref ⟨[[⟨0, 3⟩, ⟨1, 3⟩], [⟨1, 3⟩, ⟨2, 3⟩]]⟩ =
        some ⟨[[⟨1, 3⟩, ⟨0, 3⟩], [⟨0, 3⟩, ⟨1, 3⟩]]⟩ ∧
      Matrix.to_rref ⟨[[⟨1, 3⟩, ⟨0, 3⟩], [⟨0, 3⟩, ⟨1, 3⟩]]⟩ =
        some ⟨[[⟨1, 3⟩, ⟨0, 3⟩], [⟨0, 3⟩, ⟨1, 3⟩]]⟩ := by
  obtain ⟨R, hR, hRR, -⟩ := claim_C3_rref_idempotent
    ⟨[[⟨0, 3⟩, ⟨1, 3⟩], [⟨1, 3⟩, ⟨2, 3⟩]]⟩ 3 2 (by norm_num) (by decide)
  have hcomp : Matrix.to_rref ⟨[[⟨0, 3⟩, ⟨1, 3⟩], [⟨1, 3⟩, ⟨2, 3⟩]]⟩ =
      some ⟨[[⟨1, 3⟩, ⟨0, 3⟩], [⟨0, 3⟩, ⟨1, 3⟩]]⟩ := by decide
  have hval : R = ⟨[[⟨1, 3⟩, ⟨0, 3⟩], [⟨0, 3⟩, ⟨1, 3⟩]]⟩ := by
    rw [hcomp] at hR
    exact (Option.some_inj.mp hR).symm
  subst hval
  exact ⟨hR, hRR⟩

/-- C10 witness: the reduction of `[[1,1],[1,0]]` over modulus 2
succeeds. -/
theorem claim_C10_witness :
    (Matrix.to_rref ⟨[[⟨1, 2⟩, ⟨1, 2⟩], [⟨1, 2⟩, ⟨0, 2⟩]]⟩).isSome = true := by
  obtain ⟨R, hR⟩ := claim_C10_no_error ⟨[[⟨1, 2⟩, ⟨1, 2⟩], [⟨1, 2⟩, ⟨0, 2⟩]]⟩ 2 2
    (by norm_num) (by decide)
  rw [hR]
  rfl

/-! ## Claim C4: the pivot-swap search -/

theorem swapLoop_id_zero (r c : Nat) :
    ∀ (ls : List Nat) (rows : List (List GFElement)),
      (∀ l ∈ ls, l < rows.length ∧ c < (rowD rows l).length ∧ eVal rows l c = 0) →
      swapLoop r c ls rows = some rows := by
  intro ls
  induction ls with
  | nil => intro rows _; rfl
  | cons l ls ih =>
    intro rows hls
    obtain ⟨hl, hcl, hzl⟩ := hls l (List.mem_cons_self l ls)
    have hcl' : c < (rows[l]).length := by rwa [rowD_eq_getElem hl] at hcl
    have hget := getEntry_eq_some hl hcl'
    have hzl' : (entry rows l c).value = 0 := hzl
    simp only [swapLoop, hget, hzl']
    simpa using ih rows (fun l' hl' => hls l' (List.mem_cons_of_mem l hl'))

theorem swapLoop_last (r c : Nat) :
    ∀ (ls1 : List Nat) (lstar : Nat) (ls2 : List Nat) (rows : List (List GFElement)),
      (∀ l ∈ ls1 ++ lstar :: ls2, r < l ∧ l < rows.length ∧ c < (rowD rows l).length) →
      (ls1 ++ lstar :: ls2).Nodup →
      eVal rows lstar c ≠ 0 →
      (∀ l ∈ ls2, eVal rows l c = 0) →
      ∃ rows1, swapLoop r c (ls1 ++ lstar :: ls2) rows = some rows1 ∧
        rowD rows1 r = rowD rows lstar := by
  intro ls1
  induction ls1 with
  | nil =>
    intro lstar ls2 rows hmem hnd hnz hz2
    obtain ⟨hrl, hl, hcl⟩ := hmem lstar (by simp)
    have hcl' : c < (rows[lstar]).length := by rwa [rowD_eq_getElem hl] at hcl
    have hget := getEntry_eq_some hl hcl'
    have hnz' : (entry rows lstar c).value ≠ 0 := hnz
    have hr : r < rows.length := by omega
    have hsw := swapRows_some hr hl
    set A := (rows.set r rows[lstar]).set lstar rows[r] with hA
    obtain ⟨-, hswap2, hswap3⟩ := swap_rowD hr hl
    have hAlen : A.length = rows.length := by simp [hA]
    have hid : swapLoop r c ls2 A = some A := by
      apply swapLoop_id_zero
      intro l hl2
      obtain ⟨hrl2, hllen2, hcl2⟩ := hmem l (by simp [hl2])
      have hlnl : l ≠ lstar := by
        intro h
        subst h
        exact (List.nodup_cons.mp hnd).1 hl2
      have hDA : rowD A l = rowD rows l := hswap3 l (by omega) hlnl
      refine ⟨by omega, by rwa [hDA], ?_⟩
      rw [eVal, entry_congr hDA c, ← eVal]
      exact hz2 l hl2
    refine ⟨A, ?_, hswap2 (by omega)⟩
    simp only [List.nil_append, swapLoop, hget]
    rw [if_pos hnz', hsw]
    simp only
    exact hid
  | cons l ls1 ih =>
    intro lstar ls2 rows hmem hnd hnz hz2
    obtain ⟨hrl, hllen, hcl⟩ := hmem l (by simp)
    have hcl' : c < (rows[l]).length := by rwa [rowD_eq_getElem hllen] at hcl
    have hget := getEntry_eq_some hllen hcl'
    have hr : r < rows.length := by omega
    by_cases hx : (entry rows l c).value = 0
    · obtain ⟨rows1, heq, hDr⟩ := ih lstar ls2 rows
        (fun l' hl' => hmem l' (List.mem_cons_of_mem l hl'))
        (List.Nodup.of_cons hnd) hnz hz2
      refine ⟨rows1, ?_, hDr⟩
      simp only [List.cons_append, swapLoop, hget, hx]
      simpa using heq
    · have hsw := swapRows_some hr hllen
      set A := (rows.set r rows[l]).set l rows[r] with hA
      obtain ⟨-, -, hswap3⟩ := swap_rowD hr hllen
      have hAlen : A.length = rows.length := by simp [hA]
      have hDA : ∀ l', l' ∈ ls1 ++ lstar :: ls2 → rowD A l' = rowD rows l' := by
        intro l' hl'
        obtain ⟨hrl', -, -⟩ := hmem l' (List.mem_cons_of_mem l hl')
        have hl'nl : l' ≠ l := by
          intro h
          subst h
          exact (List.nodup_cons.mp hnd).1 hl'
        exact hswap3 l' (by omega) hl'nl
      obtain ⟨rows1, heq, hDr⟩ := ih lstar ls2 A
        (fun l' hl' => by
          obtain ⟨h1, h2, h3⟩ := hmem l' (List.mem_cons_of_mem l hl')
          exact ⟨h1, by omega, by rwa [hDA l' hl']⟩)
        (List.Nodup.of_cons hnd)
        (by rw [eVal, entry_congr (hDA lstar (by simp)) c, ← eVal]; exact hnz)
        (fun l' hl' => by
          rw [eVal, entry_congr (hDA l' (by simp [hl'])) c, ← eVal]
          exact hz2 l' hl')
      refine ⟨rows1, ?_, by rw [hDr, hDA lstar (by simp)]⟩
      simp only [List.cons_append, swapLoop, hget]
      rw [if_pos hx, hsw]
      simp only
      exact heq

/-- C4 counterexample: with rows `[[0],[1],[2]]` over modulus 3 and the
scan at row 0, column 0 (where the current entry is zero), the first lower
row with a non-zero entry in column 0 is row 1, yet the swap search leaves
row 2 — not row 1 — at position 0, because the source swaps every
qualifying lower row in turn instead of stopping at the first. -/
theorem claim_C4_counterexample :
    swapLoop 0 0 (List.range' 1 2)
        [[(⟨0, 3⟩ : GFElement)], [⟨1, 3⟩], [⟨2, 3⟩]] =
        some [[⟨2, 3⟩], [⟨0, 3⟩], [⟨1, 3⟩]] ∧
      eVal [[(⟨0, 3⟩ : GFElement)], [⟨1, 3⟩], [⟨2, 3⟩]] 0 0 = 0 ∧
      eVal [[(⟨0, 3⟩ : GFElement)], [⟨1, 3⟩], [⟨2, 3⟩]] 1 0 ≠ 0 ∧
      rowD [[(⟨2, 3⟩ : GFElement)], [⟨0, 3⟩], [⟨1, 3⟩]] 0 ≠
        rowD [[(⟨0, 3⟩ : GFElement)], [⟨1, 3⟩], [⟨2, 3⟩]] 1 := by
  refine ⟨by decide, by decide, by decide, by decide⟩

/-- C4 amended: during `to_rref`, when the current row `r` has a zero
entry in the candidate column `c`, the rows below `r` are searched in
ascending order and every row found with a non-zero entry in column `c` is
swapped with position `r` in turn; consequently the row that ends up at
position `r` is the last — not the first — lower row with a non-zero
entry in column `c`.  The selection is still deterministic. -/
theorem claim_C4_amended (rows : List (List GFElement)) (k r c lstar : Nat)
    (hsh : Shape k rows) (hc : c < k) (hr : r < rows.length)
    (hrz : eVal rows r c = 0)
    (hl1 : r + 1 ≤ lstar) (hl2 : lstar < rows.length)
    (hnz : eVal rows lstar c ≠ 0)
    (hlast : ∀ l, lstar < l → l < rows.length → eVal rows l c = 0) :
    ∃ rows1,
      swapLoop r c (List.range' (r + 1) (rows.length - (r + 1))) rows = some rows1 ∧
      rowD rows1 r = rowD rows lstar := by
  have hsplit : List.range' (r + 1) (rows.length - (r + 1)) =
      List.range' (r + 1) (lstar - (r + 1)) ++ lstar ::
        List.range' (lstar + 1) (rows.length - (lstar + 1)) := by
    have h1 : lstar :: List.range' (lstar + 1) (rows.length - (lstar + 1)) =
        List.range' lstar (rows.length - lstar) := by
      have h2 : rows.length - lstar = (rows.length - (lstar + 1)) + 1 := by omega
      rw [h2, List.range'_succ]
    rw [h1]
    have h3 := List.range'_append (r + 1) (lstar - (r + 1)) (rows.length - lstar) 1
    simp only [one_mul] at h3
    rw [show r + 1 + (lstar - (r + 1)) = lstar by omega] at h3
    rw [h3]
    congr 1
    omega
  rw [hsplit]
  apply swapLoop_last
  · intro l hl
    have hlmem : r < l ∧ l < rows.length := by
      rcases List.mem_append.mp hl with h | h
      · have := List.mem_range'_1.mp h
        omega
      · rcases List.mem_cons.mp h with rfl | h'
        · omega
        · have := List.mem_range'_1.mp h'
          omega
    refine ⟨hlmem.1, hlmem.2, ?_⟩
    rw [rowD_eq_getElem hlmem.2, hsh _ (List.getElem_mem hlmem.2)]
    exact hc
  · rw [← hsplit]
    exact List.nodup_range' _ _
  · exact hnz
  · intro l hl
    have := List.mem_range'_1.mp hl
    exact hlast l (by omega) (by omega)

/-- C4 amended witness: at the counterexample input the last lower row
with a non-zero entry (row 2) is the one left at position 0. -/
theorem claim_C4_amended_witness :
    swapLoop 0 0 (List.range' 1 2)
        [[(⟨0, 3⟩ : GFElement)], [⟨1, 3⟩], [⟨2, 3⟩]] =
        some [[⟨2, 3⟩], [⟨0, 3⟩], [⟨1, 3⟩]] ∧
      rowD [[(⟨2, 3⟩ : GFElement)], [⟨0, 3⟩], [⟨1, 3⟩]] 0 =
        rowD [[(⟨0, 3⟩ : GFElement)], [⟨1, 3⟩], [⟨2, 3⟩]] 2 := by
  obtain ⟨rows1, h1, h2⟩ :=
    claim_C4_amended [[(⟨0, 3⟩ : GFElement)], [⟨1, 3⟩], [⟨2, 3⟩]] 1 0 0 2
      (by decide) (by decide) (by decide) (by decide) (by decide) (by decide)
      (by decide) (fun l hgt hlt => absurd (by simpa using hlt : l < 3) (by omega))
  have h1' : swapLoop 0 0 (List.range' 1 2)
      [[(⟨0, 3⟩ : GFElement)], [⟨1, 3⟩], [⟨2, 3⟩]] = some rows1 := h1
  have hcomp : swapLoop 0 0 (List.range' 1 2)
      [[(⟨0, 3⟩ : GFElement)], [⟨1, 3⟩], [⟨2, 3⟩]] =
      some [[⟨2, 3⟩], [⟨0, 3⟩], [⟨1, 3⟩]] := by decide
  rw [hcomp] at h1'
  obtain rfl : rows1 = [[(⟨2, 3⟩ : GFElement)], [⟨0, 3⟩], [⟨1, 3⟩]] :=
    (Option.some_inj.mp h1').symm
  exact ⟨hcomp, h2⟩

/-! ## Claim C5: the transpose bug -/

/-- C5: the source's `transpose` does not satisfy `T[i][j] = M[j][i]`: it
reads `self.rows[col_idx][row_idx]`, which on a square matrix returns the
matrix unchanged.  On `M = [[0,1],[0,0]]` over modulus 2 the "transpose"
equals `M`, so its entry `(0,1)` is 1 although `M[1][0] = 0`; the first
part of the claim (`every_column_has_a_pivot` = `every_row_has_a_pivot`
after `transpose`) is definitional. -/
theorem claim_C5_transpose_bug :
    Matrix.transpose ⟨[[⟨0, 2⟩, ⟨1, 2⟩], [⟨0, 2⟩, ⟨0, 2⟩]]⟩ =
        some ⟨[[⟨0, 2⟩, ⟨1, 2⟩], [⟨0, 2⟩, ⟨0, 2⟩]]⟩ ∧
      eVal [[(⟨0, 2⟩ : GFElement), ⟨1, 2⟩], [⟨0, 2⟩, ⟨0, 2⟩]] 0 1 ≠
        eVal [[(⟨0, 2⟩ : GFElement), ⟨1, 2⟩], [⟨0, 2⟩, ⟨0, 2⟩]] 1 0 ∧
      Matrix.every_column_has_a_pivot ⟨[[⟨0, 2⟩, ⟨1, 2⟩], [⟨0, 2⟩, ⟨0, 2⟩]]⟩ =
        (Matrix.transpose ⟨[[⟨0, 2⟩, ⟨1, 2⟩], [⟨0, 2⟩, ⟨0, 2⟩]]⟩).map
          Matrix.every_row_has_a_pivot :=
  ⟨by decide, by decide, rfl⟩

/-! ## Claim C6: the multiplicative-inverse search -/

/-- C6 counterexample: for the element with value 0 and modulus 1 we have
`gcd(0, 1) = 1`, yet `mult_inverse` fails — the claimed equivalence
"fails precisely when gcd ≠ 1" is false at modulus 1. -/
theorem claim_C6_counterexample :
    Int.gcd (⟨0, 1⟩ : GFElement).value (⟨0, 1⟩ : GFElement).modulus = 1 ∧
      GFElement.mult_inverse ⟨0, 1⟩ = none :=
  ⟨by decide, by decide⟩

/-- C6 amended: `mult_inverse` searches `i` ascending over `[0, modulus)`
and returns the first (smallest non-negative) `i` with
`(value * i) mod modulus = 1`; it fails precisely when no such `i` exists
in range.  For modulus > 1 that is precisely when
`gcd(value, modulus) ≠ 1`; for modulus ≤ 1 the search always fails (even
though `gcd` may be 1 there). -/
theorem claim_C6_amended (x : GFElement) :
    (1 < x.modulus →
      (Int.gcd x.value x.modulus = 1 →
        ∃ i : Nat, (i : Int) < x.modulus ∧ (x.value * (i : Int)) % x.modulus = 1 ∧
          (∀ j : Nat, j < i → (x.value * (j : Int)) % x.modulus ≠ 1) ∧
          x.mult_inverse = some ⟨(i : Int), x.modulus⟩) ∧
      (Int.gcd x.value x.modulus ≠ 1 → x.mult_inverse = none)) ∧
    (x.modulus ≤ 1 → x.mult_inverse = none) := by
  constructor
  · intro hm
    exact ⟨fun hg => mult_inverse_some hm hg, fun hg => mult_inverse_none hg⟩
  · intro hm
    have hsearch : invSearch x = none := by
      rw [invSearch, List.find?_eq_none]
      intro i hi
      have hi' := List.mem_range.mp hi
      have hi0 : i = 0 := by omega
      subst hi0
      simp
    rw [GFElement.mult_inverse, hsearch]

/-- C6 witness: for the element 2 modulo 5, the search returns 3 (the
smallest inverse). -/
theorem claim_C6_witness :
    GFElement.mult_inverse ⟨2, 5⟩ = some ⟨3, 5⟩ := by
  obtain ⟨h1, -⟩ := claim_C6_amended ⟨2, 5⟩
  obtain ⟨i, hlt, hinv, hmin, heq⟩ := (h1 (by decide)).1 (by decide)
  have hcomp : GFElement.mult_inverse ⟨2, 5⟩ = some ⟨3, 5⟩ := by decide
  rw [heq] at hcomp ⊢
  exact hcomp

/-! ## Claim C7: the concrete scenario -/

/-- C7 counterexample: `solution` on the 3-row system
`[[1,0,1],[0,1,1],[0,0,0]]` over modulus 2 does not return `[1, 1]` — it
returns one value per row. -/
theorem claim_C7_counterexample :
    Matrix.solution ⟨[[⟨1, 2⟩, ⟨0, 2⟩, ⟨1, 2⟩], [⟨0, 2⟩, ⟨1, 2⟩, ⟨1, 2⟩],
        [⟨0, 2⟩, ⟨0, 2⟩, ⟨0, 2⟩]]⟩ ≠
      some (some [⟨1, 2⟩, ⟨1, 2⟩]) := by decide

/-- C7 amended: the augmented system `[[1,0,1],[0,1,1],[0,0,0]]` over
modulus 2 is reported solvable, and `solution` returns the vector
`[1, 1, 0]` (the last column of the RREF, one entry per row). -/
theorem claim_C7_amended :
    Matrix.is_solvable ⟨[[⟨1, 2⟩, ⟨0, 2⟩, ⟨1, 2⟩], [⟨0, 2⟩, ⟨1, 2⟩, ⟨1, 2⟩],
        [⟨0, 2⟩, ⟨0, 2⟩, ⟨0, 2⟩]]⟩ = some true ∧
      Matrix.solution ⟨[[⟨1, 2⟩, ⟨0, 2⟩, ⟨1, 2⟩], [⟨0, 2⟩, ⟨1, 2⟩, ⟨1, 2⟩],
        [⟨0, 2⟩, ⟨0, 2⟩, ⟨0, 2⟩]]⟩ = some (some [⟨1, 2⟩, ⟨1, 2⟩, ⟨0, 2⟩]) :=
  ⟨by decide, by decide⟩

/-! ## Claim C8: construction -/

/-- C8 counterexample: the modulus 0 is admitted by the claim
("for every modulus ≥ 0"), but `new(5, 0)` panics: the assertion
`m >= 0` passes and `rem_euclid(0)` divides by zero. -/
theorem claim_C8_counterexample :
    (0 : Int) ≤ 0 ∧ GFElement.new 5 0 = none :=
  ⟨le_refl 0, by decide⟩

/-- C8 amended: for every positive modulus, `new` succeeds and stores the
Euclidean (non-negative) remainder, so the value lies in `[0, m)` and
construction is periodic: `new (v + k*m) m = new v m`.  (For modulus 0 the
construction panics, so the claim's "every modulus ≥ 0" must be "every
modulus > 0".) -/
theorem claim_C8_amended (v m : Int) (hm : 0 < m) :
    GFElement.new v m = some ⟨v % m, m⟩ ∧ 0 ≤ v % m ∧ v % m < m ∧
      ∀ kk : Int, GFElement.new (v + kk * m) m = GFElement.new v m := by
  refine ⟨new_pos hm, (emod_canonical hm).1, (emod_canonical hm).2, fun kk => ?_⟩
  rw [new_pos hm, new_pos hm, Int.add_mul_emod_self]

/-- C8 witness: `new 7 3` stores 1, and adding the period `2 * 3` does not
change the element. -/
theorem claim_C8_witness :
    GFElement.new 7 3 = some ⟨1, 3⟩ ∧
      GFElement.new (7 + 2 * 3) 3 = GFElement.new 7 3 := by
  obtain ⟨h1, h2, h3, h4⟩ := claim_C8_amended 7 3 (by norm_num)
  refine ⟨?_, h4 2⟩
  rw [h1]
  decide

/-! ## Claim C9: division and the round trip -/

/-- C9 counterexample: `a = ⟨1,4⟩` and `b = ⟨2,4⟩` share modulus 4 and
`b.value ≠ 0`, yet division fails — the inverse search panics because
`gcd(2, 4) ≠ 1`; "if b.value ≠ 0 then division succeeds" is false for a
non-prime modulus. -/
theorem claim_C9_counterexample :
    (⟨2, 4⟩ : GFElement).value ≠ 0 ∧
      (⟨1, 4⟩ : GFElement).modulus = (⟨2, 4⟩ : GFElement).modulus ∧
      GFElement.div ⟨1, 4⟩ ⟨2, 4⟩ = none :=
  ⟨by decide, by decide, by decide⟩

/-- C9 amended: for canonical elements sharing a modulus, when the divisor
is non-zero and coprime to the modulus (always the case for a prime
modulus), division succeeds, is computed as `a` times the multiplicative
inverse of `b`, and the round trip `(a / b) * b = a` holds. -/
theorem claim_C9_amended (a b : GFElement) (m : Int) (ham : a.modulus = m)
    (hbm : b.modulus = m) (ha0 : 0 ≤ a.value) (halt : a.value < m)
    (hb0 : 0 ≤ b.value) (hblt : b.value < m) (hbz : b.value ≠ 0)
    (hg : Int.gcd b.value m = 1) :
    ∃ c binv, GFElement.div a b = some c ∧ b.mult_inverse = some binv ∧
      c = ⟨(a.value * binv.value) % m, m⟩ ∧ GFElement.mul c b = some a := by
  have hm : 1 < m := by omega
  have hm0 : (0 : Int) < m := by omega
  have hmb : 1 < b.modulus := by omega
  have hgb : Int.gcd b.value b.modulus = 1 := by rwa [hbm]
  obtain ⟨iv, hivlt, hinv, -, heq⟩ := mult_inverse_some hmb hgb
  have hinv' : (b.value * (iv : Int)) % m = 1 := by rwa [hbm] at hinv
  have hdiv : GFElement.div a b = some ⟨(a.value * (iv : Int)) % m, m⟩ := by
    rw [GFElement.div, if_pos (ham.trans hbm.symm), if_neg hbz, heq]
    simp [remEuclid, ham, show m ≠ 0 by omega]
  refine ⟨⟨(a.value * (iv : Int)) % m, m⟩, ⟨(iv : Int), b.modulus⟩, hdiv, heq,
    by rw [hbm], ?_⟩
  have hmul := mul_some (a := (⟨(a.value * (iv : Int)) % m, m⟩ : GFElement))
    (b := b) rfl hbm hm0
  rw [hmul]
  have hval : ((a.value * (iv : Int)) % m * b.value) % m = a.value := by
    rw [Int.mul_emod, Int.emod_emod_of_dvd _ dvd_rfl, ← Int.mul_emod]
    have hring : a.value * (iv : Int) * b.value = a.value * (b.value * (iv : Int)) := by
      ring
    rw [hring, Int.mul_emod, hinv', mul_one, Int.emod_emod_of_dvd _ dvd_rfl,
      Int.emod_eq_of_lt ha0 halt]
  rw [hval]
  congr 1
  exact (gf_eq rfl ham).symm

/-- C9 witness: `⟨2,5⟩ / ⟨3,5⟩ = ⟨4,5⟩` and multiplying back by `⟨3,5⟩`
recovers `⟨2,5⟩`. -/
theorem claim_C9_witness :
    GFElement.div ⟨2, 5⟩ ⟨3, 5⟩ = some ⟨4, 5⟩ ∧
      GFElement.mul ⟨4, 5⟩ ⟨3, 5⟩ = some ⟨2, 5⟩ := by
  obtain ⟨c, binv, hdiv, hbinv, hc, hmul⟩ :=
    claim_C9_amended ⟨2, 5⟩ ⟨3, 5⟩ 5 rfl rfl (by decide) (by decide) (by decide)
      (by decide) (by decide) (by decide)
  have hcomp : GFElement.div ⟨2, 5⟩ ⟨3, 5⟩ = some ⟨4, 5⟩ := by decide
  rw [hcomp] at hdiv
  obtain rfl : c = ⟨4, 5⟩ := (Option.some_inj.mp hdiv).symm
  exact ⟨hcomp, hmul⟩

end LightsOutSolver
